import Mathlib

/-!
Verification of the evolviconf configuration-versioning engine.

This file shallowly embeds the relevant parts of the Go library
`github.com/conduitio/evolviconf` in Lean:

* the semantic-version value type (Masterminds semver restricted to
  `major.minor.patch`, which is how the library's claims exercise it),
* the changelog, its expansion into hierarchical field trees
  (`Changelog.Expand` / `Changelog.addChange`),
* the linter lookup functions (`configLinter.findChange`,
  `configLinter.changelogForVersion`, `configLinter.InspectNode`),
* the warning type, the warning sort contract,
* the YAML adapter's recoverable-error conversion
  (`Parser.yamlTypeErrorToWarnings`, `Parser.ParseVersionedConfig`),
* the dispatching parser (`Parser.Parse`, `Parser.parseVersion`,
  `Parser.findVersionedConfigParser`, `NewParserExtended`).

Go maps from strings to heterogeneous values (sub-map or `Change`) are
modelled as association lists with a tagged node type; Go maps keyed by
versions are modelled as association lists keyed by the version value.
All functions are executable.
-/

namespace EvolviConf

/-- Semantic version `major.minor.patch` (Masterminds `semver.Version`
without prerelease/metadata, which the library's changelog keys and the
spec's examples never use; comparison is then lexicographic on the three
numeric components, exactly `semver.Version.Compare`). -/
structure SemVer where
  major : Nat
  minor : Nat
  patch : Nat
deriving DecidableEq

/-- `a.LessThan b` of Masterminds semver (no prerelease): lexicographic
comparison of major, minor, patch. -/
def SemVer.ltb (a b : SemVer) : Bool :=
  if a.major < b.major then true
  else if b.major < a.major then false
  else if a.minor < b.minor then true
  else if b.minor < a.minor then false
  else decide (a.patch < b.patch)

/-- `a.GreaterThan b` of Masterminds semver. -/
def SemVer.gtb (a b : SemVer) : Bool := SemVer.ltb b a

/-- `a.GreaterThanEqual b` of Masterminds semver (total order, so `¬ a < b`). -/
def SemVer.gteb (a b : SemVer) : Bool := !(SemVer.ltb a b)

/-- `semver.Version.String()` for a version without prerelease/metadata. -/
def SemVer.str (v : SemVer) : String :=
  toString v.major ++ "." ++ toString v.minor ++ "." ++ toString v.patch

/-- The type of a change introduced in a specific version
(`evolviconf.ChangeType`). -/
inductive ChangeType where
  | FieldDeprecated
  | FieldIntroduced
deriving DecidableEq

/-- A single change introduced in a specific version (`evolviconf.Change`):
a dotted field path, the change type, and the log message. -/
structure Change where
  Field : String
  ChangeType : ChangeType
  Message : String
deriving DecidableEq

/-- Provenance of a warning (`evolviconf.Position`). -/
structure Position where
  Field : String := ""
  Line : Int := 0
  Column : Int := 0
  Value : String := ""
deriving DecidableEq

/-- A warning with position data (`evolviconf.Warning`). -/
structure Warning where
  Position : Position := {}
  Message : String
deriving DecidableEq

/-- `evolviconf.Warnings`. -/
abbrev Warnings := List Warning

/-- A value of the heterogeneous Go map `map[string]any` used by the
expanded changelog: either a terminal `Change` or a nested sub-map
(`map[string]any` modelled as an association list with unique keys). -/
inductive Node where
  | change : Change → Node
  | tmap : List (String × Node) → Node

/-- The Go `map[string]any` holding a level of the field tree. -/
abbrev TreeMap := List (String × Node)

/-- Go map read `m[k]`. -/
def tlookup : TreeMap → String → Option Node
  | [], _ => none
  | (k', v) :: rest, k => if k = k' then some v else tlookup rest k

/-- Go map write `m[k] = v`: replaces the binding if the key is present,
otherwise adds it. -/
def tinsert : TreeMap → String → Node → TreeMap
  | [], k, v => [(k, v)]
  | (k', v') :: rest, k, v =>
    if k = k' then (k, v) :: rest else (k', v') :: tinsert rest k v

/-- Go `strings.Split(s, ".")` on the character sequence of `s`: splits
around every `'.'`; the empty string yields one empty token. -/
def splitTokens : List Char → List (List Char)
  | [] => [[]]
  | c :: rest =>
    let r := splitTokens rest
    if c = '.' then [] :: r
    else
      match r with
      | [] => [[c]]
      | t :: ts => (c :: t) :: ts

/-- The dotted field path of a change as a token list:
`strings.Split(change.Field, ".")`. -/
def changeTokens (c : Change) : List String :=
  (splitTokens c.Field.data).map (fun l => String.mk l)

/-- The body of `Changelog.addChange` (part_003 lines 94–115), operating on
the token list of the change's field path: walk the tokens; at the last
token store the change (overwriting whatever is there); at an inner token
descend into an existing sub-map, create a fresh sub-map if the key is
absent, and stop (leaving the tree unchanged) if the key holds a terminal
`Change`. -/
def addTokens (c : Change) : List String → TreeMap → TreeMap
  | [], m => m
  | [t], m => tinsert m t (.change c)
  | t :: t' :: ts, m =>
    match tlookup m t with
    | none => tinsert m t (.tmap (addTokens c (t' :: ts) []))
    | some (.tmap m2) => tinsert m t (.tmap (addTokens c (t' :: ts) m2))
    | some (.change _) => m
termination_by structural p _ => p

/-- `Changelog.addChange`: stores `change` in the map `m` under the
tokens of its dotted field path. -/
def addChange (c : Change) (m : TreeMap) : TreeMap :=
  addTokens c (changeTokens c) m

/-- Exact-path read-back of a field tree: follows the given tokens through
sub-maps and returns the terminal `Change` bound at exactly that path (no
wildcard logic; this is the plain observation `m[t1][t2]...[tn]`). -/
def lookupTokens : List String → TreeMap → Option Change
  | [], _ => none
  | [t], m =>
    match tlookup m t with
    | some (.change c) => some c
    | _ => none
  | t :: t' :: ts, m =>
    match tlookup m t with
    | some (.tmap m2) => lookupTokens (t' :: ts) m2
    | _ => none
termination_by structural p _ => p

/-- `true` iff walking the strict ancestors of the token path through `m`
never meets a terminal `Change`: every ancestor segment is a sub-tree or
absent.  (`false` means some strict ancestor is already bound to a
terminal `Change`, which makes `addTokens` discard the insertion.) -/
def ancestorsOpen : List String → TreeMap → Bool
  | [], _ => true
  | [_], _ => true
  | t :: t' :: ts, m =>
    match tlookup m t with
    | some (.change _) => false
    | some (.tmap m2) => ancestorsOpen (t' :: ts) m2
    | none => true
termination_by structural p _ => p

/-- `evolviconf.Changelog`: a map from version to the list of changes
introduced in that version, modelled as an association list (Go iterates
its keys and sorts them, so only the key set and per-key lists matter;
claims about `Expand` assume pairwise-distinct version keys, matching the
documented changelog invariant). -/
abbrev Changelog := List (SemVer × List Change)

/-- Go map read `cl[v]`. -/
def clFind : Changelog → SemVer → Option (List Change)
  | [], _ => none
  | (v', cs) :: rest, v => if v = v' then some cs else clFind rest v

/-- Insertion step of sorting a `semver.Collection` ascending. -/
def insertV (v : SemVer) : List SemVer → List SemVer
  | [] => [v]
  | w :: ws => if SemVer.ltb v w then v :: w :: ws else w :: insertV v ws

/-- `sort.Sort(semver.Collection)`: the changelog's version keys in
ascending order (for the pairwise-distinct keys of a changelog any
correct sort produces this list). -/
def sortVersions : List SemVer → List SemVer
  | [] => []
  | v :: vs => insertV v (sortVersions vs)

/-- One step of the inner loop of `Changelog.Expand` (part_003 lines
64–83): given the changes declared at version `v`, update the tree being
built for target version `v2`: if `v` is not greater than `v2` insert the
`FieldDeprecated` changes, otherwise insert the `FieldIntroduced`
changes. -/
def expandStep (changes : List Change) (v : SemVer) (e : SemVer × TreeMap) :
    SemVer × TreeMap :=
  if SemVer.gtb v e.1 = false then
    (e.1, (changes.filter (fun c => c.ChangeType = ChangeType.FieldDeprecated)).foldl
      (fun mm c => addChange c mm) e.2)
  else
    (e.1, (changes.filter (fun c => c.ChangeType = ChangeType.FieldIntroduced)).foldl
      (fun mm c => addChange c mm) e.2)

/-- `Changelog.Expand` (part_003 lines 52–86): sort the version keys,
initialise an empty tree per version, then for every declaring version
`v` (ascending) add its deprecated changes to every tree at or after `v`
and its introduced changes to every tree before `v`. -/
def Expand (cl : Changelog) : List (SemVer × TreeMap) :=
  let versions := sortVersions (cl.map Prod.fst)
  versions.foldl
    (fun acc v => acc.map (expandStep ((clFind cl v).getD []) v))
    (versions.map (fun v => (v, ([] : TreeMap))))

/-- The sequence of changes inserted (in order) into the tree built for
target version `v2` while `Expand` walks the declaring versions `vs`. -/
def insertSeq (cl : Changelog) (v2 : SemVer) : List SemVer → List Change
  | [] => []
  | v :: vs =>
    (if SemVer.gtb v v2 = false then
      (((clFind cl v).getD []).filter (fun c => c.ChangeType = ChangeType.FieldDeprecated))
    else
      (((clFind cl v).getD []).filter (fun c => c.ChangeType = ChangeType.FieldIntroduced)))
      ++ insertSeq cl v2 vs

/-- All changes of a changelog, in declaration order. -/
def allChanges (cl : Changelog) : List Change := (cl.map Prod.snd).flatten

/-- Two changes have independent field paths: neither's token path is a
(possibly equal) prefix of the other's. -/
def tokensIndep (c1 c2 : Change) : Prop :=
  ¬ changeTokens c1 <+: changeTokens c2 ∧ ¬ changeTokens c2 <+: changeTokens c1

instance (c1 c2 : Change) : Decidable (tokensIndep c1 c2) := by
  unfold tokensIndep
  infer_instance

/-- The changes that `Expand` inserts into the tree of target version
`v2` on behalf of declaring version `v`. -/
def versionChunk (cl : Changelog) (v2 v : SemVer) : List Change :=
  if SemVer.gtb v v2 = false then
    (((clFind cl v).getD []).filter (fun c => c.ChangeType = ChangeType.FieldDeprecated))
  else
    (((clFind cl v).getD []).filter (fun c => c.ChangeType = ChangeType.FieldIntroduced))

/-- One lookup step of `configLinter.findChange` (part_006 lines 57–63):
try the exact field name, and if absent fall back to the wildcard key
`"*"`. -/
def lookupEW (m : TreeMap) (field : String) : Option Node :=
  match tlookup m field with
  | some n => some n
  | none => tlookup m "*"

/-- The walking loop of `configLinter.findChange` (part_006 lines 55–74):
walk the path segments through the tree with exact-then-wildcard lookup;
descend through sub-maps; a terminal `Change` found at the final segment
(`i == last`) is returned; a terminal `Change` found earlier, or a missing
key, or a sub-map at the final segment, ends the search with no result. -/
def findLoop : List String → TreeMap → Option Change
  | [], _ => none
  | [t], m =>
    match lookupEW m t with
    | some (.change c) => some c
    | _ => none
  | t :: t' :: ts, m =>
    match lookupEW m t with
    | some (.tmap m2) => findLoop (t' :: ts) m2
    | _ => none
termination_by structural p _ => p

/-- The exact-then-wildcard walk as a plain observation: the node reached
by following the whole path (descending only through sub-maps; a terminal
`Change` can only be the final node). -/
def walkEW : List String → TreeMap → Option Node
  | [], m => some (.tmap m)
  | t :: ts, m =>
    match lookupEW m t with
    | some (.tmap m2) => walkEW ts m2
    | some (.change c) => if ts = [] then some (.change c) else none
    | none => none
termination_by structural p _ => p

/-- Go map read on the expanded changelog `cl.expandedChangelog[v]`. -/
def eclFind : List (SemVer × TreeMap) → SemVer → Option TreeMap
  | [], _ => none
  | (v', m) :: rest, v => if v = v' then some m else eclFind rest v

/-- The loop condition of `configLinter.changelogForVersion` (part_006
line 85): `version.GreaterThan(v) && (bestMatch == nil ||
v.GreaterThan(bestMatch))`. -/
def betterCandidate (version v : SemVer) (best : Option SemVer) : Bool :=
  SemVer.gtb version v &&
    (match best with
     | none => true
     | some b => SemVer.gtb v b)

/-- The best-match accumulator of `configLinter.changelogForVersion`
(part_006 lines 79–89): remember the greatest version so far that the
requested version is greater than. -/
def bestFold (version : SemVer) : List (SemVer × TreeMap) → Option SemVer → Option SemVer
  | [], best => best
  | (v, _) :: rest, best =>
    if betterCandidate version v best then
      bestFold version rest (some v)
    else
      bestFold version rest best
termination_by structural l _ => l

/-- The final map read of `configLinter.changelogForVersion` (part_006
line 90): `cl.expandedChangelog[bestMatch]`; a `nil` best match reads the
Go map at `nil`, which yields the empty tree. -/
def cfvFinish (ecl : List (SemVer × TreeMap)) : Option SemVer → TreeMap
  | none => []
  | some b => (eclFind ecl b).getD []

/-- The loop of `configLinter.changelogForVersion` (part_006 lines 78–91):
return the tree on an exact version match; otherwise track the best
(greatest smaller) version and finally read the map at it. -/
def cfvLoop (version : SemVer) (ecl : List (SemVer × TreeMap)) :
    List (SemVer × TreeMap) → Option SemVer → TreeMap
  | [], best => cfvFinish ecl best
  | (v, m) :: rest, best =>
    if version = v then m
    else if betterCandidate version v best then
      cfvLoop version ecl rest (some v)
    else
      cfvLoop version ecl rest best
termination_by structural l _ => l

/-- `configLinter.changelogForVersion`. -/
def changelogForVersion (ecl : List (SemVer × TreeMap)) (version : SemVer) : TreeMap :=
  cfvLoop version ecl ecl none

/-- `configLinter.findChange` (part_006 lines 53–76). -/
def findChange (ecl : List (SemVer × TreeMap)) (version : SemVer)
    (path : List String) : Option Change :=
  findLoop path (changelogForVersion ecl version)

/-- The position data of a `yaml.Node` used by the linter. -/
structure YamlNode where
  Line : Int := 0
  Column : Int := 0
  Value : String := ""
deriving DecidableEq

/-- `configLinter.newWarning` (part_006 lines 93–103). -/
def newWarning (field : String) (node : YamlNode) (message : String) : Warning :=
  { Position :=
      { Field := field
        Line := node.Line
        Column := node.Column
        Value := node.Value }
    Message := message }

/-- `configLinter.InspectNode` (part_006 lines 46–51): on a hit the Go
code reads `path[len(path)-1]`; the model returns the last segment via
`List.getLast?`, and the out-of-bounds Go panic corresponds to the
(provably unreachable) branch where a change is found on an empty path. -/
def InspectNode (ecl : List (SemVer × TreeMap)) (version : SemVer)
    (path : List String) (node : YamlNode) : Option Warning :=
  match findChange ecl version path, path.getLast? with
  | some c, some f => some (newWarning f node c.Message)
  | some _, none => none
  | none, _ => none

/-- A structural decode error delivered in a batched `yaml.TypeError`:
an unknown-field error (with field name, position and rendered message)
or any other structural error. -/
inductive YamlErr where
  | unknownField (field : String) (line col : Int) (msg : String)
  | other (msg : String)
deriving DecidableEq

/-- Whether a batched structural error is a `yaml.UnknownFieldError`. -/
def YamlErr.isUnknownField : YamlErr → Bool
  | .unknownField _ _ _ _ => true
  | .other _ => false

/-- The `Warning` built from one unknown-field error in
`Parser.yamlTypeErrorToWarnings` (src/evolviyaml/parser.go lines
124–133): field, line and column from the error, no value, the error's
rendered message. -/
def uerrWarning : YamlErr → Warning
  | .unknownField f l c msg =>
    { Position := { Field := f, Line := l, Column := c, Value := "" }
      Message := msg }
  | .other msg => { Message := msg }

/-- `yaml.TypeError.Error()`: the batched errors rendered as one message. -/
def typeErrorMessage (errs : List YamlErr) : String :=
  errs.foldl
    (fun acc e =>
      acc ++ "\n  " ++
        (match e with
         | .unknownField _ _ _ m => m
         | .other m => m))
    "yaml: unmarshal errors:"

/-- `Parser.yamlTypeErrorToWarnings` (src/evolviyaml/parser.go lines
120–140): converts the batch to warnings if every error is an
unknown-field error; otherwise returns no warnings and the type error
itself (modelled as `none`). -/
def yamlTypeErrorToWarnings : List YamlErr → Option Warnings
  | [] => some []
  | .unknownField f l c msg :: rest =>
    match yamlTypeErrorToWarnings rest with
    | some w => some (uerrWarning (.unknownField f l c msg) :: w)
    | none => none
  | .other _ :: _ => none

/-- Outcome of the strict YAML decode inside `ParseVersionedConfig`:
success, a batched `yaml.TypeError` (the document was partially decoded
into `cfg`), or another decode error. -/
inductive DecodeOutcome (C : Type) where
  | ok (cfg : C)
  | typeErr (cfg : C) (errs : List YamlErr)
  | fatal (msg : String)

/-- `Parser.ParseVersionedConfig` (src/evolviyaml/parser.go lines 89–115)
after the decode step: `lintWarn` holds the warnings accumulated by the
linter decoder hook; a `yaml.TypeError` is recovered into warnings when
possible, any remaining error aborts with a decoding error and no
warnings at all. -/
def ParseVersionedConfig {C : Type} (lintWarn : Warnings) (out : DecodeOutcome C) :
    Except String (C × Warnings) :=
  match out with
  | .ok cfg => .ok (cfg, lintWarn)
  | .typeErr cfg errs =>
    match yamlTypeErrorToWarnings errs with
    | some w => .ok (cfg, lintWarn ++ w)
    | none => .error ("decoding error: " ++ typeErrorMessage errs)
  | .fatal msg => .error ("decoding error: " ++ msg)

/-- The line number of a warning (Go promotes the embedded
`Position.Line`). -/
def Warning.Line (w : Warning) : Int := w.Position.Line

/-- Ordered by ascending line number: the guarantee of
`sort.Slice(w, less)` with `less = w[i].Line < w[j].Line`. -/
def sortedByLine (w : Warnings) : Prop :=
  w.Pairwise (fun a b => a.Line ≤ b.Line)

/-- The contract of `Warnings.Sort` (src/warning.go lines 32–37): it
calls Go `sort.Slice`, whose documented contract is to reorder the slice
into some permutation ordered by the less function; Go explicitly does
NOT guarantee the sort to be stable, so every line-ordered permutation
is an admissible output. -/
def WarningsSortSpec (w wOut : Warnings) : Prop :=
  wOut.Perm w ∧ sortedByLine wOut

/-- A deterministic refinement of the `sort.Slice` contract (insertion
sort by ascending line), used to keep the embedded `Parser.Parse`
executable; the claims proved about `Parse` do not depend on the order of
equal-line warnings. -/
def sortByLine (w : Warnings) : Warnings :=
  List.insertionSort (fun a b => a.Line ≤ b.Line) w

/-- A version-specific configuration value (`evolviconf.VersionedConfig`):
exposes only `ToConfig() (T, error)`. -/
structure VersionedCfg (C : Type) where
  toConfig : Except String C

/-- Failure modes of the version reader (`evolviconf.VersionParser`):
`ErrVersionNotSpecified` is recoverable, anything else is not.  End of
input (`io.EOF`) is represented structurally by the end of the document
stream, matching the loop-termination check in `Parser.Parse`. -/
inductive VersionReadErr where
  | versionNotSpecified
  | other (msg : String)
deriving DecidableEq

/-- One registered versioned schema parser
(`evolviconf.VersionedConfigParser`): its latest known version, its
constraint (only its `Check` predicate and rendered string are ever
used), and its document decoding behavior. -/
structure CfgParser (C D : Type) where
  latestKnownVersion : SemVer
  constraintCheck : SemVer → Bool
  constraintStr : String
  parseVersionedConfig : D → SemVer → Except String (VersionedCfg C × Warnings)

/-- The dispatching parser (`evolviconf.Parser`, examples version). -/
structure DispatchParser (C D : Type) where
  versionParser : D → Except VersionReadErr SemVer
  configParsers : List (CfgParser C D)
  latestVersion : SemVer

/-- `NewParserExtended` (parsing examples parser lines 191–209): the
latest version starts at `0.0.0` and takes every parser's
`LatestKnownVersion` that is greater. -/
def NewParserExtended {C D : Type} (vp : D → Except VersionReadErr SemVer)
    (ps : List (CfgParser C D)) : DispatchParser C D :=
  { versionParser := vp
    configParsers := ps
    latestVersion := ps.foldl
      (fun acc p => if SemVer.gtb p.latestKnownVersion acc then p.latestKnownVersion else acc)
      ⟨0, 0, 0⟩ }

/-- The warning emitted when no version is declared (`Parser.parseVersion`,
lines 266–269): zero position, message naming the fallback version. -/
def fallbackVersionWarning (latest : SemVer) : Warning :=
  { Message := "no version defined, falling back to parser version " ++ latest.str }

/-- `Parser.parseVersion` (parsing examples parser lines 262–275). -/
def parseVersion {C D : Type} (P : DispatchParser C D) (doc : D) :
    Except String (SemVer × Warnings) :=
  match P.versionParser doc with
  | .ok v => .ok (v, [])
  | .error .versionNotSpecified =>
    .ok (P.latestVersion, [fallbackVersionWarning P.latestVersion])
  | .error (.other msg) => .error ("failed to parse version: " ++ msg)

/-- The best-match update condition of `findVersionedConfigParser` (line
292): `bestMatch == nil || bestMatch.LatestKnownVersion().LessThan(...)`. -/
def betterParser {C D : Type} (p : CfgParser C D) :
    Option (CfgParser C D) → Bool
  | none => true
  | some b => SemVer.ltb b.latestKnownVersion p.latestKnownVersion

/-- The loop of `Parser.findVersionedConfigParser` (parsing examples
parser lines 280–298): the first constraint-satisfying parser whose
latest known version is at least the requested one is a perfect match;
otherwise the constraint-satisfying parser with the greatest latest
known version is kept as the best match (`none` models Go's nil
parser). -/
def fvcpFinish {C D : Type} : Option (CfgParser C D) → Option (CfgParser C D × Bool)
  | none => none
  | some p => some (p, false)

def fvcpLoop {C D : Type} (version : SemVer) :
    List (CfgParser C D) → Option (CfgParser C D) → Option (CfgParser C D × Bool)
  | [], best => fvcpFinish best
  | p :: rest, best =>
    if p.constraintCheck version then
      if SemVer.gteb p.latestKnownVersion version then some (p, true)
      else if betterParser p best then fvcpLoop version rest (some p)
      else fvcpLoop version rest best
    else fvcpLoop version rest best
termination_by structural l _ => l

/-- `Parser.findVersionedConfigParser`. -/
def findVersionedConfigParser {C D : Type} (ps : List (CfgParser C D))
    (version : SemVer) : Option (CfgParser C D × Bool) :=
  fvcpLoop version ps none

/-- The warning appended when only a best match was found (`Parser.Parse`
lines 239–243), naming the requested version, the chosen parser's latest
known version and its constraint (the "costraints" typo is the Go
code's). -/
def fallbackParserWarning {C D : Type} (version : SemVer) (p : CfgParser C D) : Warning :=
  { Message := "no parser found for version " ++ version.str ++
      ", using parser for version " ++ p.latestKnownVersion.str ++
      " with costraints " ++ p.constraintStr }

/-- The loop of `Parser.Parse` (parsing examples parser lines 224–257)
over a finite document stream, carrying the configs and warnings
accumulated so far; the end of the list is `io.EOF`, which terminates
the loop without error. -/
def ParseLoop {C D : Type} (P : DispatchParser C D) :
    List D → List C → Warnings → Except String (List C × Warnings)
  | [], configs, warnings => .ok (configs, warnings)
  | doc :: rest, configs, warnings =>
    match parseVersion P doc with
    | .error e => .error e
    | .ok (version, w) =>
      match findVersionedConfigParser P.configParsers version with
      | none => .error ("unsupported version " ++ version.str)
      | some (parser, perfectMatch) =>
        match parser.parseVersionedConfig doc version with
        | .error e => .error ("failed to parse versioned config: " ++ e)
        | .ok (vc, w2) =>
          match vc.toConfig with
          | .error e =>
            .error ("failed to convert versioned config to actual config: " ++ e)
          | .ok out =>
            ParseLoop P rest (configs ++ [out])
              ((if perfectMatch then warnings ++ w
                else (warnings ++ w) ++ [fallbackParserWarning version parser]) ++
                sortByLine w2)
termination_by structural p _ _ => p

/-- `Parser.Parse` (parsing examples parser lines 211–259). -/
def Parse {C D : Type} (P : DispatchParser C D) (docs : List D) :
    Except String (List C × Warnings) :=
  ParseLoop P docs [] []

/-- The ghost accumulator of `findVersionedConfigParser`: the best
(greatest latest-known-version) constraint-satisfying parser seen so
far. -/
def pbFold {C D : Type} (version : SemVer) :
    List (CfgParser C D) → Option (CfgParser C D) → Option (CfgParser C D)
  | [], best => best
  | p :: rest, best =>
    if p.constraintCheck version && betterParser p best then
      pbFold version rest (some p)
    else
      pbFold version rest best
termination_by structural l _ => l

instance : IsTotal Warning (fun a b => a.Line ≤ b.Line) :=
  ⟨fun a b => Int.le_total a.Line b.Line⟩

instance : IsTrans Warning (fun a b => a.Line ≤ b.Line) :=
  ⟨fun _ _ _ hab hbc => le_trans hab hbc⟩

/-- Version `1.0.0`. -/
def v100 : SemVer := ⟨1, 0, 0⟩

/-- Version `2.0.0`. -/
def v200 : SemVer := ⟨2, 0, 0⟩

/-- A change registered on field `a`. -/
def chA : Change := ⟨"a", .FieldDeprecated, "field a is deprecated"⟩

/-- A change registered on the nested field `a.b`. -/
def chAB : Change := ⟨"a.b", .FieldDeprecated, "field a.b is deprecated"⟩

/-- A changelog registering changes on both `a` and `a.b` at version
`1.0.0` (so both are applicable to version `1.0.0`). -/
def clEx : Changelog := [(v100, [chA, chAB])]

/-- A change registered under a wildcard segment. -/
def chW : Change := ⟨"pipelines.*.processors", .FieldDeprecated, "processors moved"⟩

/-- A changelog with a wildcard-path change. -/
def clW : Changelog := [(v100, [chW])]

/-- A change on field path `x.y`, introduced in `2.0.0`. -/
def chXY : Change := ⟨"x.y", .FieldIntroduced, "x.y is new"⟩

/-- A two-version changelog with independent field paths. -/
def clTwo : Changelog := [(v100, [chA]), (v200, [chXY])]

/-- A concrete expanded changelog with trees at `1.0.0` and `2.0.0`. -/
def eclW5 : List (SemVer × TreeMap) := [(v100, [("a", Node.change chA)]), (v200, [])]

/-- A warning on line 1 with message `A`. -/
def wL1A : Warning := { Position := { Line := 1 }, Message := "A" }

/-- A warning on line 1 with message `B`. -/
def wL1B : Warning := { Position := { Line := 1 }, Message := "B" }

/-- A `^1` parser with latest known version `1.1.0` that decodes to `7`. -/
def parser1 : CfgParser Nat Unit :=
  { latestKnownVersion := ⟨1, 1, 0⟩
    constraintCheck := fun v => v.major == 1
    constraintStr := "^1"
    parseVersionedConfig := fun _ _ => .ok (⟨.ok 7⟩, []) }

/-- A `^2` parser with latest known version `2.0.0` that decodes to `8`. -/
def parser2 : CfgParser Nat Unit :=
  { latestKnownVersion := ⟨2, 0, 0⟩
    constraintCheck := fun v => v.major == 2
    constraintStr := "^2"
    parseVersionedConfig := fun _ _ => .ok (⟨.ok 8⟩, []) }

/-- A version reader that always reads `1.12.0`. -/
def vpC3 : Unit → Except VersionReadErr SemVer := fun _ => .ok ⟨1, 12, 0⟩

/-- The dispatching parser of the best-match scenario: parsers `^1`
(latest `1.1.0`) and `^2`, requested version `1.12.0`. -/
def PC3 : DispatchParser Nat Unit := NewParserExtended vpC3 [parser1, parser2]

/-- A version reader that always reads `3.0.0`. -/
def vpU : Unit → Except VersionReadErr SemVer := fun _ => .ok ⟨3, 0, 0⟩

/-- The dispatching parser of the unsupported-version scenario. -/
def PU : DispatchParser Nat Unit := NewParserExtended vpU [parser1, parser2]

/-- A version reader that reports a missing version field. -/
def vpNone : Unit → Except VersionReadErr SemVer := fun _ => .error .versionNotSpecified

/-- The dispatching parser of the no-version-fallback scenario. -/
def PNoV : DispatchParser Nat Unit := NewParserExtended vpNone [parser1, parser2]

/-- A version reader that fails with a non-recoverable error. -/
def vpBoom : Unit → Except VersionReadErr SemVer := fun _ => .error (.other "boom")

/-- The dispatching parser of the fatal-version-error scenario. -/
def PBoom : DispatchParser Nat Unit := NewParserExtended vpBoom [parser1, parser2]

theorem SemVer.ltb_iff (a b : SemVer) :
    SemVer.ltb a b = true ↔
      (a.major < b.major ∨ (a.major = b.major ∧
        (a.minor < b.minor ∨ (a.minor = b.minor ∧ a.patch < b.patch)))) := by
  cases a; cases b
  simp only [SemVer.ltb]
  repeat' split
  all_goals simp_all
  all_goals omega

theorem SemVer.ltb_irrefl (a : SemVer) : SemVer.ltb a a = false := by
  simp [SemVer.ltb]

theorem SemVer.ltb_asymm {a b : SemVer} (h : SemVer.ltb a b = true) :
    SemVer.ltb b a = false := by
  rw [SemVer.ltb_iff] at h
  rw [Bool.eq_false_iff, Ne, SemVer.ltb_iff]
  omega

theorem SemVer.ltb_total {a b : SemVer} (hab : SemVer.ltb a b = false)
    (hba : SemVer.ltb b a = false) : a = b := by
  rw [Bool.eq_false_iff, Ne, SemVer.ltb_iff] at hab hba
  cases a; cases b
  simp only [SemVer.mk.injEq]
  simp only at hab hba
  omega

theorem SemVer.ltb_trans {a b c : SemVer} (hab : SemVer.ltb a b = true)
    (hbc : SemVer.ltb b c = true) : SemVer.ltb a c = true := by
  rw [SemVer.ltb_iff] at hab hbc ⊢
  omega

theorem lookup_keys (m : TreeMap) (k : String) (v : Node)
    (h : tlookup m k = some v) : k ∈ m.map Prod.fst := by
  induction m with
  | nil => simp [tlookup] at h
  | cons hd rest ih =>
    obtain ⟨k₀, v₀⟩ := hd
    simp only [tlookup] at h
    by_cases hk : k = k₀
    · simp [hk]
    · simp only [if_neg hk] at h
      simp [ih h]

theorem splitTokens_ne_nil (cs : List Char) : splitTokens cs ≠ [] := by
  induction cs with
  | nil => simp [splitTokens]
  | cons c rest ih =>
    rw [splitTokens]
    by_cases hc : c = '.'
    · simp [hc]
    · simp only [if_neg hc]
      cases h : splitTokens rest with
      | nil => simp
      | cons t ts => simp

theorem changeTokens_ne_nil (c : Change) : changeTokens c ≠ [] := by
  unfold changeTokens
  simp [splitTokens_ne_nil]

theorem lookupTokens_nil (p : List String) : lookupTokens p [] = none := by
  cases p with
  | nil => rfl
  | cons t ts => cases ts <;> simp [lookupTokens, tlookup]

theorem tlookup_tinsert (m : TreeMap) (k : String) (v : Node) (k' : String) :
    tlookup (tinsert m k v) k' = if k' = k then some v else tlookup m k' := by
  induction m with
  | nil =>
    by_cases h' : k' = k <;> simp [tinsert, tlookup, h']
  | cons hd rest ih =>
    obtain ⟨k₀, v₀⟩ := hd
    simp only [tinsert]
    by_cases h : k = k₀
    · subst h
      by_cases h' : k' = k <;> simp [tlookup, h']
    · by_cases h' : k' = k
      · subst h'
        simp [tlookup, h, ih, Ne.symm h]
      · rw [if_neg h]
        simp only [tlookup, ih, if_neg h']

theorem tinsert_self {m : TreeMap} {k : String} {v : Node}
    (h : tlookup m k = some v) : tinsert m k v = m := by
  induction m with
  | nil => simp [tlookup] at h
  | cons hd rest ih =>
    obtain ⟨k₀, v₀⟩ := hd
    simp only [tlookup] at h
    simp only [tinsert]
    by_cases hk : k = k₀
    · subst hk
      simp only [if_pos rfl] at h
      cases h
      simp
    · simp only [if_neg hk] at h
      simp [hk, ih h]

theorem ancestorsOpen_nil (q : List String) : ancestorsOpen q [] = true := by
  cases q with
  | nil => rfl
  | cons t ts =>
    cases ts with
    | nil => rfl
    | cons t' ts' => simp [ancestorsOpen, tlookup]

/-- If some strict ancestor of the token path is already bound to a
terminal `Change`, `addTokens` leaves the tree unchanged. -/
theorem addTokens_blocked {m : TreeMap} {q : List String}
    (h : ancestorsOpen q m = false) (c : Change) : addTokens c q m = m := by
  induction q generalizing m with
  | nil => simp [ancestorsOpen] at h
  | cons t ts ih =>
    cases ts with
    | nil => simp [ancestorsOpen] at h
    | cons t' ts' =>
      rw [ancestorsOpen] at h
      rw [addTokens]
      cases hl : tlookup m t with
      | none => rw [hl] at h; simp at h
      | some n =>
        cases n with
        | change c' => simp
        | tmap m2 =>
          rw [hl] at h
          simp only at h
          simp only [ih h, tinsert_self hl]

/-- When no strict ancestor is blocked, `addTokens` binds the full token
path to the change. -/
theorem addTokens_lookup_self {m : TreeMap} {q : List String}
    (hq : q ≠ []) (h : ancestorsOpen q m = true) (c : Change) :
    lookupTokens q (addTokens c q m) = some c := by
  induction q generalizing m with
  | nil => exact absurd rfl hq
  | cons t ts ih =>
    cases ts with
    | nil =>
      simp [addTokens, lookupTokens, tlookup_tinsert]
    | cons t' ts' =>
      rw [ancestorsOpen] at h
      rw [addTokens]
      cases hl : tlookup m t with
      | none =>
        simp only [lookupTokens, tlookup_tinsert, if_pos rfl]
        exact ih (by simp) (ancestorsOpen_nil _)
      | some n =>
        cases n with
        | change c' => rw [hl] at h; simp at h
        | tmap m2 =>
          rw [hl] at h
          simp only at h
          simp only [lookupTokens, tlookup_tinsert, if_pos rfl]
          exact ih (by simp) h

/-- Inserting at token path `q` does not affect the exact lookup of any
path that does not extend `q`. -/
theorem addTokens_lookup_other {q p : List String} (h : ¬ q <+: p)
    (c : Change) (m : TreeMap) :
    lookupTokens p (addTokens c q m) = lookupTokens p m := by
  induction q generalizing m p with
  | nil => exact absurd ⟨p, rfl⟩ h
  | cons t ts ih =>
    cases ts with
    | nil =>
      cases p with
      | nil => simp [lookupTokens]
      | cons s ps =>
        have hst : s ≠ t := by
          rintro rfl
          exact h (by simp)
        cases ps with
        | nil =>
          simp [addTokens, lookupTokens, tlookup_tinsert, hst]
        | cons s' ps' =>
          simp [addTokens, lookupTokens, tlookup_tinsert, hst]
    | cons t' ts' =>
      rw [addTokens]
      cases hl : tlookup m t with
      | none =>
        cases p with
        | nil => simp [lookupTokens]
        | cons s ps =>
          by_cases hst : s = t
          · subst hst
            have hts : ¬ (t' :: ts') <+: ps := fun hp => h (by simpa using hp)
            cases ps with
            | nil => simp [lookupTokens, tlookup_tinsert, hl]
            | cons p' ps' =>
              simp [lookupTokens, tlookup_tinsert, hl, ih hts, lookupTokens_nil]
          · cases ps with
            | nil => simp [lookupTokens, tlookup_tinsert, hst]
            | cons p' ps' => simp [lookupTokens, tlookup_tinsert, hst]
      | some n =>
        cases n with
        | change c' => rfl
        | tmap m2 =>
          cases p with
          | nil => simp [lookupTokens]
          | cons s ps =>
            by_cases hst : s = t
            · subst hst
              have hts : ¬ (t' :: ts') <+: ps := fun hp => h (by simpa using hp)
              cases ps with
              | nil => simp [lookupTokens, tlookup_tinsert, hl]
              | cons p' ps' =>
                simp [lookupTokens, tlookup_tinsert, hl, ih hts]
            · cases ps with
              | nil => simp [lookupTokens, tlookup_tinsert, hst]
              | cons p' ps' => simp [lookupTokens, tlookup_tinsert, hst]

/-- After inserting at token path `q` (with open ancestors), any strict
extension of `q` reads back nothing: the terminal `Change` cuts off the
subtree. -/
theorem addTokens_lookup_ext {m : TreeMap} {q u : List String}
    (hq : q ≠ []) (hu : u ≠ []) (h : ancestorsOpen q m = true) (c : Change) :
    lookupTokens (q ++ u) (addTokens c q m) = none := by
  induction q generalizing m with
  | nil => exact absurd rfl hq
  | cons t ts ih =>
    cases ts with
    | nil =>
      cases u with
      | nil => exact absurd rfl hu
      | cons u' us' =>
        simp [addTokens, lookupTokens, tlookup_tinsert]
    | cons t' ts' =>
      rw [ancestorsOpen] at h
      rw [addTokens]
      cases hl : tlookup m t with
      | none =>
        simp only [List.cons_append, lookupTokens, tlookup_tinsert, if_pos rfl]
        exact ih (by simp) (ancestorsOpen_nil _)
      | some n =>
        cases n with
        | change c' => rw [hl] at h; simp at h
        | tmap m2 =>
          rw [hl] at h
          simp only at h
          simp only [List.cons_append, lookupTokens, tlookup_tinsert, if_pos rfl]
          exact ih (by simp) h

/-- If some strict ancestor of the path is bound to a terminal `Change`
(`ancestorsOpen = false`), that ancestor is visible to the exact lookup. -/
theorem ancestorsOpen_false_elim {m : TreeMap} {q : List String}
    (h : ancestorsOpen q m = false) :
    ∃ r u, r ≠ [] ∧ u ≠ [] ∧ q = r ++ u ∧ (lookupTokens r m).isSome := by
  induction q generalizing m with
  | nil => simp [ancestorsOpen] at h
  | cons t ts ih =>
    cases ts with
    | nil => simp [ancestorsOpen] at h
    | cons t' ts' =>
      rw [ancestorsOpen] at h
      cases hl : tlookup m t with
      | none => rw [hl] at h; simp at h
      | some n =>
        cases n with
        | change c' =>
          exact ⟨[t], t' :: ts', by simp, by simp, by simp,
            by simp [lookupTokens, hl]⟩
        | tmap m2 =>
          rw [hl] at h
          simp only at h
          obtain ⟨r, u, hr, hu, hq, hs⟩ := ih h
          refine ⟨t :: r, u, by simp, hu, by simp [hq], ?_⟩
          cases r with
          | nil => exact absurd rfl hr
          | cons r' rs' => simpa [lookupTokens, hl] using hs

/-- If no strict ancestor of the path is bound to a terminal `Change`
(`ancestorsOpen = true`), then the exact lookup of every strict ancestor
yields nothing. -/
theorem ancestorsOpen_true_elim {m : TreeMap} {r u : List String}
    (hr : r ≠ []) (hu : u ≠ []) (h : ancestorsOpen (r ++ u) m = true) :
    lookupTokens r m = none := by
  induction r generalizing m with
  | nil => exact absurd rfl hr
  | cons s rs ih =>
    cases rs with
    | nil =>
      cases u with
      | nil => exact absurd rfl hu
      | cons u' us' =>
        simp only [List.cons_append, List.nil_append] at h
        rw [ancestorsOpen] at h
        cases hl : tlookup m s with
        | none => simp [lookupTokens, hl]
        | some n =>
          cases n with
          | change c' => rw [hl] at h; simp at h
          | tmap m2 => simp [lookupTokens, hl]
    | cons s' rs' =>
      simp only [List.cons_append] at h
      rw [ancestorsOpen] at h
      cases hl : tlookup m s with
      | none => simp [lookupTokens, hl]
      | some n =>
        cases n with
        | change c' => rw [hl] at h; simp at h
        | tmap m2 =>
          rw [hl] at h
          simp only at h
          simpa [lookupTokens, hl] using ih (by simp) h

theorem insertV_perm (v : SemVer) (l : List SemVer) :
    (insertV v l).Perm (v :: l) := by
  induction l with
  | nil => simp [insertV]
  | cons w ws ih =>
    rw [insertV]
    split
    · exact List.Perm.refl _
    · exact (List.Perm.cons w ih).trans (List.Perm.swap v w ws)

theorem sortVersions_perm (l : List SemVer) : (sortVersions l).Perm l := by
  induction l with
  | nil => simp [sortVersions]
  | cons v vs ih =>
    exact (insertV_perm v (sortVersions vs)).trans (List.Perm.cons v ih)

theorem tokensIndep_symm : Symmetric tokensIndep := by
  intro a b h
  exact ⟨h.2, h.1⟩

theorem expandStep_fst (changes : List Change) (v : SemVer)
    (e : SemVer × TreeMap) : (expandStep changes v e).1 = e.1 := by
  rw [expandStep]
  split <;> rfl

theorem expandStep_snd (changes : List Change) (v : SemVer)
    (e : SemVer × TreeMap) :
    (expandStep changes v e).2 =
      (insertSeq [(v, changes)] e.1 [v]).foldl (fun mm c => addChange c mm) e.2 := by
  rw [expandStep, insertSeq, insertSeq]
  simp only [clFind, if_pos rfl, Option.getD_some, List.append_nil]
  split <;> rfl

theorem expand_foldl_entry (cl : Changelog) (vs : List SemVer)
    (acc : List (SemVer × TreeMap)) :
    vs.foldl (fun acc v => acc.map (expandStep ((clFind cl v).getD []) v)) acc =
      acc.map (fun e => (e.1, (insertSeq cl e.1 vs).foldl (fun mm c => addChange c mm) e.2)) := by
  induction vs generalizing acc with
  | nil => simp [insertSeq]
  | cons v vs ih =>
    rw [List.foldl_cons, ih, List.map_map]
    apply List.map_congr_left
    intro e _
    simp only [Function.comp_apply, expandStep_fst]
    rw [insertSeq, List.foldl_append]
    congr 1
    rw [expandStep]
    split <;> rfl

/-- Each entry of `Expand cl` is the fold of `addChange` over the
insertion sequence for its version. -/
theorem Expand_eq (cl : Changelog) :
    Expand cl = (sortVersions (cl.map Prod.fst)).map
      (fun v2 => (v2, (insertSeq cl v2 (sortVersions (cl.map Prod.fst))).foldl
        (fun mm c => addChange c mm) [])) := by
  rw [Expand, expand_foldl_entry, List.map_map]
  rfl

/-- Characterization of a tree built by repeated `addChange` over changes
with pairwise independent field paths: the tree binds exactly the
inserted changes, each under the tokens of its own field path. -/
theorem foldl_addChange_char (L : List Change) (S : List Change) (m : TreeMap)
    (hm : ∀ p c', lookupTokens p m = some c' ↔ (c' ∈ S ∧ changeTokens c' = p))
    (hind : (S ++ L).Pairwise tokensIndep) :
    ∀ p c', lookupTokens p (L.foldl (fun mm c => addChange c mm) m) = some c' ↔
      (c' ∈ S ++ L ∧ changeTokens c' = p) := by
  induction L generalizing S m with
  | nil => simpa using hm
  | cons c L' ih =>
    have hq : changeTokens c ≠ [] := changeTokens_ne_nil c
    have hSc : ∀ a ∈ S, tokensIndep a c := by
      intro a ha
      exact (List.pairwise_append.mp hind).2.2 a ha c (by simp)
    have hopen : ancestorsOpen (changeTokens c) m = true := by
      by_contra h'
      have h'' : ancestorsOpen (changeTokens c) m = false := by
        simpa using h'
      obtain ⟨r, u, hr, hu, hqru, hsome⟩ := ancestorsOpen_false_elim h''
      obtain ⟨c'', hc''⟩ := Option.isSome_iff_exists.mp hsome
      obtain ⟨hmem, htok⟩ := (hm r c'').mp hc''
      have hpre : changeTokens c'' <+: changeTokens c := by
        rw [htok, hqru]
        exact ⟨u, rfl⟩
      exact (hSc c'' hmem).1 hpre
    have hinv : ∀ p c', lookupTokens p (addChange c m) = some c' ↔
        (c' ∈ S ++ [c] ∧ changeTokens c' = p) := by
      intro p c'
      by_cases hpq : changeTokens c <+: p
      · obtain ⟨u, hu⟩ := hpq
        by_cases hu0 : u = []
        · subst hu0
          simp only [List.append_nil] at hu
          subst hu
          rw [addChange, addTokens_lookup_self hq hopen]
          constructor
          · rintro h
            cases h
            exact ⟨by simp, rfl⟩
          · rintro ⟨hmem, htok⟩
            simp only [List.mem_append, List.mem_singleton] at hmem
            rcases hmem with hmem | rfl
            · exact absurd (htok ▸ List.prefix_refl _) ((hSc c' hmem).1).elim
            · rfl
        · rw [addChange, ← hu, addTokens_lookup_ext hq hu0 hopen]
          constructor
          · intro h
            exact absurd h (by simp)
          · rintro ⟨hmem, htok⟩
            simp only [List.mem_append, List.mem_singleton] at hmem
            rcases hmem with hmem | rfl
            · exact absurd ⟨u, htok.symm⟩ ((hSc c' hmem).2)
            · have hlen := congrArg List.length htok
              simp only [List.length_append] at hlen
              exact absurd (List.eq_nil_of_length_eq_zero (by omega)) hu0
      · rw [addChange, addTokens_lookup_other hpq, hm]
        constructor
        · rintro ⟨hmem, htok⟩
          exact ⟨by simp [hmem], htok⟩
        · rintro ⟨hmem, htok⟩
          simp only [List.mem_append, List.mem_singleton] at hmem
          rcases hmem with hmem | rfl
          · exact ⟨hmem, htok⟩
          · exact absurd (htok ▸ List.prefix_refl _) hpq
    have hind' : ((S ++ [c]) ++ L').Pairwise tokensIndep := by
      rw [List.append_assoc]
      simpa using hind
    have := ih (S ++ [c]) (addChange c m) hinv hind'
    intro p c'
    rw [List.foldl_cons]
    rw [this p c']
    rw [List.append_assoc]
    simp

theorem insertSeq_eq_flatMap (cl : Changelog) (v2 : SemVer) (vs : List SemVer) :
    insertSeq cl v2 vs = vs.flatMap (versionChunk cl v2) := by
  induction vs with
  | nil => simp [insertSeq]
  | cons v vs ih => rw [insertSeq, List.flatMap_cons, ih, versionChunk]

theorem clFind_eq_some {cl : Changelog}
    (hkeys : (cl.map Prod.fst).Pairwise (· ≠ ·)) {v : SemVer} {cs : List Change} :
    clFind cl v = some cs ↔ (v, cs) ∈ cl := by
  induction cl with
  | nil => simp [clFind]
  | cons e rest ih =>
    obtain ⟨v₀, cs₀⟩ := e
    simp only [List.map_cons, List.pairwise_cons] at hkeys
    rw [clFind]
    by_cases hv : v = v₀
    · subst hv
      simp only [if_pos rfl, List.mem_cons]
      constructor
      · rintro h
        cases h
        exact Or.inl rfl
      · rintro (h | h)
        · cases h; rfl
        · exact absurd rfl (hkeys.1 v (List.mem_map_of_mem Prod.fst h)).elim
    · rw [if_neg hv, ih hkeys.2]
      simp only [List.mem_cons]
      constructor
      · exact Or.inr
      · rintro (h | h)
        · cases h; exact absurd rfl hv
        · exact h

theorem clFind_tail {e : SemVer × List Change} {rest : Changelog} {v : SemVer}
    (hv : v ≠ e.1) : clFind (e :: rest) v = clFind rest v := by
  obtain ⟨v₀, cs₀⟩ := e
  simp only [clFind]
  exact if_neg hv

theorem flatMap_congr_mem {α β : Type} {l : List α} {f g : α → List β}
    (h : ∀ a ∈ l, f a = g a) : l.flatMap f = l.flatMap g := by
  induction l with
  | nil => rfl
  | cons x xs ih =>
    rw [List.flatMap_cons, List.flatMap_cons, h x (by simp),
      ih (fun a ha => h a (by simp [ha]))]

theorem flatMap_sublist_of_sublist {α β : Type} {l : List α} {f g : α → List β}
    (h : ∀ a, List.Sublist (f a) (g a)) :
    List.Sublist (l.flatMap f) (l.flatMap g) := by
  induction l with
  | nil => simp
  | cons x xs ih =>
    rw [List.flatMap_cons, List.flatMap_cons]
    exact List.Sublist.append (h x) ih

/-- With pairwise-distinct keys, reading every key of the changelog back
through the map yields exactly all changes in declaration order. -/
theorem flatMap_keys_eq {cl : Changelog}
    (hkeys : (cl.map Prod.fst).Pairwise (· ≠ ·)) :
    (cl.map Prod.fst).flatMap (fun v => (clFind cl v).getD []) = allChanges cl := by
  induction cl with
  | nil => rfl
  | cons e rest ih =>
    obtain ⟨v₀, cs₀⟩ := e
    simp only [List.map_cons, List.pairwise_cons] at hkeys
    rw [List.map_cons, List.flatMap_cons]
    have h1 : (clFind ((v₀, cs₀) :: rest) v₀).getD [] = cs₀ := by
      simp [clFind]
    have h2 : (rest.map Prod.fst).flatMap
        (fun v => (clFind ((v₀, cs₀) :: rest) v).getD []) =
        (rest.map Prod.fst).flatMap (fun v => (clFind rest v).getD []) := by
      apply flatMap_congr_mem
      intro v hv
      obtain ⟨e', he', rfl⟩ := List.mem_map.mp hv
      rw [clFind_tail
        (show e'.1 ≠ v₀ from (hkeys.1 e'.1 (List.mem_map_of_mem Prod.fst he')).symm)]
    rw [h1, h2, ih hkeys.2]
    simp [allChanges]

/-- The insertion sequence of any target version consists of changes with
pairwise independent paths whenever all changes of the changelog have
pairwise independent paths. -/
theorem insertSeq_pairwise {cl : Changelog}
    (hkeys : (cl.map Prod.fst).Pairwise (· ≠ ·))
    (hind : (allChanges cl).Pairwise tokensIndep) (v2 : SemVer) :
    (insertSeq cl v2 (sortVersions (cl.map Prod.fst))).Pairwise tokensIndep := by
  rw [insertSeq_eq_flatMap]
  have hsub : List.Sublist
      ((sortVersions (cl.map Prod.fst)).flatMap (versionChunk cl v2))
      ((sortVersions (cl.map Prod.fst)).flatMap (fun v => (clFind cl v).getD [])) := by
    apply flatMap_sublist_of_sublist
    intro v
    rw [versionChunk]
    split <;> exact List.filter_sublist _
  have hperm : ((sortVersions (cl.map Prod.fst)).flatMap
      (fun v => (clFind cl v).getD [])).Perm (allChanges cl) := by
    rw [← flatMap_keys_eq hkeys]
    exact List.Perm.flatMap_right _ (sortVersions_perm _)
  have S : ∀ {x y : Change}, tokensIndep x y → tokensIndep y x :=
    fun hxy => tokensIndep_symm hxy
  exact ((hperm.pairwise_iff S).mpr hind).sublist hsub

/-- Membership in the insertion sequence, phrased against the changelog:
exactly the deprecated changes of versions not above `v2` and the
introduced changes of versions above `v2`. -/
theorem insertSeq_mem {cl : Changelog}
    (hkeys : (cl.map Prod.fst).Pairwise (· ≠ ·)) (v2 : SemVer) (c : Change) :
    c ∈ insertSeq cl v2 (sortVersions (cl.map Prod.fst)) ↔
      ∃ v cs, (v, cs) ∈ cl ∧ c ∈ cs ∧
        ((c.ChangeType = ChangeType.FieldDeprecated ∧ SemVer.gtb v v2 = false) ∨
         (c.ChangeType = ChangeType.FieldIntroduced ∧ SemVer.gtb v v2 = true)) := by
  rw [insertSeq_eq_flatMap, List.mem_flatMap]
  constructor
  · rintro ⟨v, hv, hc⟩
    have hv' : v ∈ cl.map Prod.fst := (sortVersions_perm _).mem_iff.mp hv
    obtain ⟨e, he, rfl⟩ := List.mem_map.mp hv'
    have hfind : clFind cl e.1 = some e.2 := (clFind_eq_some hkeys).mpr (by simpa using he)
    rw [versionChunk, hfind] at hc
    refine ⟨e.1, e.2, by simpa using he, ?_⟩
    by_cases hgt : SemVer.gtb e.1 v2 = false
    · rw [if_pos hgt] at hc
      simp only [Option.getD_some, List.mem_filter, decide_eq_true_eq] at hc
      exact ⟨hc.1, Or.inl ⟨hc.2, hgt⟩⟩
    · rw [if_neg hgt] at hc
      simp only [Option.getD_some, List.mem_filter, decide_eq_true_eq] at hc
      exact ⟨hc.1, Or.inr ⟨hc.2, by simpa using hgt⟩⟩
  · rintro ⟨v, cs, hmem, hc, hcase⟩
    have hfind : clFind cl v = some cs := (clFind_eq_some hkeys).mpr hmem
    refine ⟨v, (sortVersions_perm _).mem_iff.mpr (List.mem_map_of_mem Prod.fst hmem), ?_⟩
    rw [versionChunk, hfind]
    rcases hcase with ⟨hty, hgt⟩ | ⟨hty, hgt⟩
    · rw [if_pos hgt]
      simp [List.mem_filter, hc, hty]
    · rw [if_neg (by simp [hgt])]
      simp [List.mem_filter, hc, hty]

theorem SemVer.ltb_false_trans {a b c : SemVer} (hab : SemVer.ltb a b = false)
    (hbc : SemVer.ltb b c = false) : SemVer.ltb a c = false := by
  rw [Bool.eq_false_iff, Ne, SemVer.ltb_iff] at hab hbc ⊢
  omega

theorem SemVer.ltb_of_ltb_of_nltb {a b c : SemVer} (hab : SemVer.ltb a b = true)
    (hcb : SemVer.ltb c b = false) : SemVer.ltb a c = true := by
  rw [SemVer.ltb_iff] at hab ⊢
  rw [Bool.eq_false_iff, Ne, SemVer.ltb_iff] at hcb
  omega

theorem findLoop_nil (m : TreeMap) : findLoop [] m = none := rfl

theorem findLoop_cons {l : List String} (hl : l ≠ []) (t : String) (m : TreeMap) :
    findLoop (t :: l) m =
      (match lookupEW m t with
       | some (.tmap m2) => findLoop l m2
       | _ => none) := by
  cases l with
  | nil => exact absurd rfl hl
  | cons t' ts =>
    rw [findLoop]

/-- The wildcard-aware walk reaches a terminal `Change` on the full path
exactly when `findChange`'s loop returns that change. -/
theorem findLoop_eq_walkEW (p : List String) (m : TreeMap) (c : Change) :
    findLoop p m = some c ↔ walkEW p m = some (.change c) := by
  induction p generalizing m with
  | nil => simp [findLoop, walkEW]
  | cons t ts ih =>
    cases ts with
    | nil =>
      rw [findLoop, walkEW]
      cases hl : lookupEW m t with
      | none => simp
      | some n =>
        cases n with
        | change c' => simp [walkEW]
        | tmap m2 => simp [walkEW]
    | cons t' ts' =>
      rw [findLoop, walkEW]
      cases hl : lookupEW m t with
      | none => simp
      | some n =>
        cases n with
        | change c' => simp
        | tmap m2 => exact ih m2

/-- A terminal `Change` reached strictly before the end of the path makes
the loop give up: `findChange`'s loop returns nothing for any extension
of a path that ends at a terminal `Change`. -/
theorem findLoop_cut {p1 : List String} {m : TreeMap} {c : Change}
    (h : walkEW p1 m = some (.change c)) {p2 : List String} (hp2 : p2 ≠ []) :
    findLoop (p1 ++ p2) m = none := by
  induction p1 generalizing m with
  | nil =>
    rw [walkEW] at h
    cases h
  | cons t ts ih =>
    rw [walkEW] at h
    have hne : ts ++ p2 ≠ [] := by
      intro hcontra
      exact hp2 (List.append_eq_nil.mp hcontra).2
    rw [List.cons_append, findLoop_cons hne]
    cases hl : lookupEW m t with
    | none => rw [hl] at h
    | some n =>
      cases n with
      | change c' => rfl
      | tmap m2 =>
        rw [hl] at h
        simp only at h
        exact ih h

theorem eclFind_eq_some {ecl : List (SemVer × TreeMap)}
    (hkeys : (ecl.map Prod.fst).Pairwise (· ≠ ·)) {v : SemVer} {m : TreeMap} :
    eclFind ecl v = some m ↔ (v, m) ∈ ecl := by
  induction ecl with
  | nil => simp [eclFind]
  | cons e rest ih =>
    obtain ⟨v₀, m₀⟩ := e
    simp only [List.map_cons, List.pairwise_cons] at hkeys
    rw [eclFind]
    by_cases hv : v = v₀
    · subst hv
      simp only [if_pos rfl, List.mem_cons]
      constructor
      · rintro h
        cases h
        exact Or.inl rfl
      · rintro (h | h)
        · cases h; rfl
        · exact absurd rfl (hkeys.1 v (List.mem_map_of_mem Prod.fst h)).elim
    · rw [if_neg hv, ih hkeys.2]
      simp only [List.mem_cons]
      constructor
      · exact Or.inr
      · rintro (h | h)
        · cases h; exact absurd rfl hv
        · exact h

/-- If the requested version appears among the (distinct) keys, the loop
of `changelogForVersion` returns its tree no matter the accumulator. -/
theorem cfvLoop_exact {version : SemVer} {m : TreeMap} (ecl : List (SemVer × TreeMap)) :
    ∀ (l : List (SemVer × TreeMap)), ((l.map Prod.fst).Pairwise (· ≠ ·)) →
      (version, m) ∈ l → ∀ best, cfvLoop version ecl l best = m := by
  intro l
  induction l with
  | nil => intro _ h; simp at h
  | cons e rest ih =>
    intro hkeys hmem best
    obtain ⟨v₀, m₀⟩ := e
    simp only [List.map_cons, List.pairwise_cons] at hkeys
    rw [cfvLoop]
    by_cases hv : version = v₀
    · subst hv
      rw [if_pos rfl]
      rcases List.mem_cons.mp hmem with h | h
      · cases h; rfl
      · exact absurd rfl (hkeys.1 version (List.mem_map_of_mem Prod.fst h)).elim
    · rw [if_neg hv]
      have hmem' : (version, m) ∈ rest := by
        rcases List.mem_cons.mp hmem with h | h
        · cases h; exact absurd rfl hv
        · exact h
      split
      · exact ih hkeys.2 hmem' _
      · exact ih hkeys.2 hmem' _

/-- Without an exact match among the walked entries, the loop of
`changelogForVersion` reduces to the best-match fold followed by one map
read (a missing best match reads the empty tree). -/
theorem cfvLoop_no_exact {version : SemVer} (ecl : List (SemVer × TreeMap)) :
    ∀ (l : List (SemVer × TreeMap)), (∀ e ∈ l, version ≠ e.1) → ∀ best,
      cfvLoop version ecl l best =
        (match bestFold version l best with
         | none => []
         | some b => (eclFind ecl b).getD []) := by
  intro l
  induction l with
  | nil =>
    intro _ best
    rw [cfvLoop, bestFold, cfvFinish.eq_def]
  | cons e rest ih =>
    intro hne best
    obtain ⟨v₀, m₀⟩ := e
    rw [cfvLoop, bestFold, if_neg (hne (v₀, m₀) (by simp))]
    have hrest : ∀ e ∈ rest, version ≠ e.1 := fun e he => hne e (by simp [he])
    split
    · exact ih hrest _
    · exact ih hrest _

theorem betterCandidate_true_iff (version v : SemVer) (best : Option SemVer) :
    betterCandidate version v best = true ↔
      (SemVer.ltb v version = true ∧ ∀ b, best = some b → SemVer.ltb b v = true) := by
  cases best with
  | none => simp [betterCandidate, SemVer.gtb]
  | some b => simp [betterCandidate, SemVer.gtb]

theorem bestFold_none_iff {version : SemVer} :
    ∀ (l : List (SemVer × TreeMap)) (best : Option SemVer),
      (bestFold version l best = none ↔
        (best = none ∧ ∀ e ∈ l, SemVer.ltb e.1 version = false)) := by
  intro l
  induction l with
  | nil => intro best; simp [bestFold]
  | cons e rest ih =>
    intro best
    obtain ⟨v₀, m₀⟩ := e
    rw [bestFold]
    split
    · rename_i hcond
      rw [ih]
      constructor
      · rintro ⟨h, _⟩
        cases h
      · rintro ⟨hbest, hall⟩
        have hc := (betterCandidate_true_iff version v₀ best).mp hcond
        rw [hall (v₀, m₀) (by simp)] at hc
        cases hc.1
    · rename_i hcond
      rw [ih]
      constructor
      · rintro ⟨hbest, hall⟩
        subst hbest
        refine ⟨rfl, ?_⟩
        intro e he
        rcases List.mem_cons.mp he with h | h
        · subst h
          show SemVer.ltb v₀ version = false
          cases hv : SemVer.ltb v₀ version
          · rfl
          · exact absurd ((betterCandidate_true_iff version v₀ none).mpr
              ⟨hv, fun b hb => nomatch hb⟩) hcond
        · exact hall e h
      · rintro ⟨hbest, hall⟩
        exact ⟨hbest, fun e he => hall e (by simp [he])⟩

/-- The best-match fold returns a version smaller than the requested one
that is greatest among the accumulator and all smaller walked keys. -/
theorem bestFold_some_spec {version : SemVer} :
    ∀ (l : List (SemVer × TreeMap)) (best : Option SemVer),
      (∀ x, best = some x → SemVer.ltb x version = true) →
      ∀ b, bestFold version l best = some b →
        SemVer.ltb b version = true ∧
        (best = some b ∨ b ∈ l.map Prod.fst) ∧
        (∀ x, best = some x → SemVer.ltb b x = false) ∧
        (∀ e ∈ l, SemVer.ltb e.1 version = true → SemVer.ltb b e.1 = false) := by
  intro l
  induction l with
  | nil =>
    intro best hbest b hfold
    rw [bestFold] at hfold
    subst hfold
    exact ⟨hbest b rfl, Or.inl rfl,
      fun x hx => by cases hx; exact SemVer.ltb_irrefl b, by simp⟩
  | cons e rest ih =>
    intro best hbest b hfold
    obtain ⟨v₀, m₀⟩ := e
    rw [bestFold] at hfold
    split at hfold
    · rename_i hcond
      have hc := (betterCandidate_true_iff version v₀ best).mp hcond
      have hv₀ : SemVer.ltb v₀ version = true := hc.1
      have hres := ih (some v₀) (by rintro x hx; cases hx; exact hv₀) b hfold
      refine ⟨hres.1, ?_, ?_, ?_⟩
      · rcases hres.2.1 with h | h
        · cases h; exact Or.inr (by simp)
        · exact Or.inr (by simp [h])
      · intro x hx
        have hbv₀ : SemVer.ltb b v₀ = false := hres.2.2.1 v₀ rfl
        have hxv₀ : SemVer.ltb x v₀ = true := hc.2 x hx
        cases hbx : SemVer.ltb b x
        · rfl
        · rw [SemVer.ltb_trans hbx hxv₀] at hbv₀
          cases hbv₀
      · intro e he hlt
        rcases List.mem_cons.mp he with h | h
        · subst h
          exact hres.2.2.1 v₀ rfl
        · exact hres.2.2.2 e h hlt
    · rename_i hcond
      have hres := ih best hbest b hfold
      refine ⟨hres.1, ?_, hres.2.2.1, ?_⟩
      · rcases hres.2.1 with h | h
        · exact Or.inl h
        · exact Or.inr (by simp [h])
      · intro e he hlt
        rcases List.mem_cons.mp he with h | h
        · subst h
          show SemVer.ltb b v₀ = false
          have hlt' : SemVer.ltb v₀ version = true := hlt
          cases hb' : best with
          | none =>
            rw [hb'] at hcond
            exact absurd ((betterCandidate_true_iff version v₀ none).mpr
              ⟨hlt', fun x hx => nomatch hx⟩) hcond
          | some y =>
            have hyv₀ : SemVer.ltb y v₀ = false := by
              cases hy : SemVer.ltb y v₀
              · rfl
              · rw [hb'] at hcond
                exact absurd ((betterCandidate_true_iff version v₀ (some y)).mpr
                  ⟨hlt', by rintro x hx; cases hx; exact hy⟩) hcond
            exact SemVer.ltb_false_trans (hres.2.2.1 y hb') hyv₀
        · exact hres.2.2.2 e h hlt

theorem Expand_keys (cl : Changelog) :
    (Expand cl).map Prod.fst = sortVersions (cl.map Prod.fst) := by
  rw [Expand_eq, List.map_map]
  have h : (Prod.fst ∘ fun v2 : SemVer =>
      (v2, (insertSeq cl v2 (sortVersions (cl.map Prod.fst))).foldl
        (fun mm c => addChange c mm) [])) = id := rfl
  rw [h, List.map_id]

/-- Characterization of every tree produced by `Expand` for a changelog
with distinct version keys and pairwise independent change paths: the
tree for target version `v2` binds exactly the changes of its insertion
sequence, each under its own field path. -/
theorem Expand_lookup_char {cl : Changelog}
    (hkeys : (cl.map Prod.fst).Pairwise (· ≠ ·))
    (hind : (allChanges cl).Pairwise tokensIndep)
    {v2 : SemVer} {m : TreeMap} (hmem : (v2, m) ∈ Expand cl) :
    ∀ p c', lookupTokens p m = some c' ↔
      (c' ∈ insertSeq cl v2 (sortVersions (cl.map Prod.fst)) ∧
        changeTokens c' = p) := by
  rw [Expand_eq] at hmem
  obtain ⟨v, hv, heq⟩ := List.mem_map.mp hmem
  have hv2 : v = v2 := congrArg Prod.fst heq
  subst hv2
  have hm : (insertSeq cl v (sortVersions (cl.map Prod.fst))).foldl
      (fun mm c => addChange c mm) [] = m := congrArg Prod.snd heq
  subst hm
  intro p c'
  have h := foldl_addChange_char
    (insertSeq cl v (sortVersions (cl.map Prod.fst))) [] []
    (by intro p c'; simp [lookupTokens_nil])
    (by simpa using insertSeq_pairwise hkeys hind v) p c'
  simpa using h

theorem SemVer.ltb_zero (x : SemVer) : SemVer.ltb x ⟨0, 0, 0⟩ = false := by
  cases h : SemVer.ltb x ⟨0, 0, 0⟩
  · rfl
  · have := (SemVer.ltb_iff x ⟨0, 0, 0⟩).mp h
    simp only at this
    omega

/-- The first list element that satisfies the constraint and has a
latest known version at least the requested one is returned as a perfect
match, whatever the accumulator. -/
theorem fvcpLoop_first_perfect {C D : Type} (version : SemVer) :
    ∀ (pre : List (CfgParser C D)) (p : CfgParser C D) (post : List (CfgParser C D))
      (best : Option (CfgParser C D)),
      (∀ q ∈ pre, ¬(q.constraintCheck version = true ∧
        SemVer.gteb q.latestKnownVersion version = true)) →
      p.constraintCheck version = true →
      SemVer.gteb p.latestKnownVersion version = true →
      fvcpLoop version (pre ++ p :: post) best = some (p, true) := by
  intro pre
  induction pre with
  | nil =>
    intro p post best _ hc hv
    rw [List.nil_append, fvcpLoop, if_pos hc, if_pos hv]
  | cons q pre' ih =>
    intro p post best hpre hc hv
    rw [List.cons_append, fvcpLoop]
    have hpre' : ∀ q' ∈ pre', ¬(q'.constraintCheck version = true ∧
        SemVer.gteb q'.latestKnownVersion version = true) :=
      fun q' hq' => hpre q' (by simp [hq'])
    by_cases hqc : q.constraintCheck version = true
    · rw [if_pos hqc]
      have hqv : SemVer.gteb q.latestKnownVersion version = false := by
        cases hgv : SemVer.gteb q.latestKnownVersion version
        · rfl
        · exact absurd ⟨hqc, hgv⟩ (hpre q (by simp))
      rw [hqv]
      simp only [Bool.false_eq_true, if_false]
      split
      · exact ih p post (some q) hpre' hc hv
      · exact ih p post best hpre' hc hv
    · rw [if_neg hqc]
      exact ih p post best hpre' hc hv

/-- Without any perfect match in the list, the selection loop reduces to
the best-match fold (returned as a non-perfect match). -/
theorem fvcpLoop_no_perfect {C D : Type} (version : SemVer) :
    ∀ (l : List (CfgParser C D)),
      (∀ p ∈ l, p.constraintCheck version = true →
        SemVer.gteb p.latestKnownVersion version = false) →
      ∀ best, fvcpLoop version l best =
        (match pbFold version l best with
         | none => none
         | some q => some (q, false)) := by
  intro l
  induction l with
  | nil =>
    intro _ best
    rw [fvcpLoop, pbFold]
    cases best <;> rfl
  | cons p rest ih =>
    intro hnp best
    have hrest : ∀ q ∈ rest, q.constraintCheck version = true →
        SemVer.gteb q.latestKnownVersion version = false :=
      fun q hq => hnp q (by simp [hq])
    rw [fvcpLoop, pbFold]
    by_cases hc : p.constraintCheck version = true
    · rw [if_pos hc, hnp p (by simp) hc]
      simp only [Bool.false_eq_true, if_false, hc, Bool.true_and]
      by_cases hb : betterParser p best = true
      · rw [if_pos hb, if_pos hb]
        exact ih hrest (some p)
      · rw [if_neg hb, if_neg hb]
        exact ih hrest best
    · have hc' : p.constraintCheck version = false := by
        cases h : p.constraintCheck version
        · rfl
        · exact absurd h hc
      rw [if_neg hc, hc']
      simp only [Bool.false_and, Bool.false_eq_true, if_false]
      exact ih hrest best

theorem pbFold_none_iff {C D : Type} (version : SemVer) :
    ∀ (l : List (CfgParser C D)) (best : Option (CfgParser C D)),
      (pbFold version l best = none ↔
        (best = none ∧ ∀ p ∈ l, p.constraintCheck version = false)) := by
  intro l
  induction l with
  | nil => intro best; simp [pbFold]
  | cons p rest ih =>
    intro best
    rw [pbFold]
    split
    · rename_i hcond
      rw [ih]
      simp only [Bool.and_eq_true] at hcond
      constructor
      · rintro ⟨h, _⟩
        cases h
      · rintro ⟨hbest, hall⟩
        rw [hall p (by simp)] at hcond
        cases hcond.1
    · rename_i hcond
      rw [ih]
      constructor
      · rintro ⟨hbest, hall⟩
        subst hbest
        refine ⟨rfl, ?_⟩
        intro q hq
        rcases List.mem_cons.mp hq with h | h
        · subst h
          cases hch : q.constraintCheck version
          · rfl
          · exact absurd (by rw [hch, betterParser]; rfl) hcond
        · exact hall q h
      · rintro ⟨hbest, hall⟩
        exact ⟨hbest, fun q hq => hall q (by simp [hq])⟩

/-- The best-match fold keeps a constraint-satisfying parser with the
greatest latest known version among the accumulator and all
constraint-satisfying walked parsers. -/
theorem pbFold_some_spec {C D : Type} (version : SemVer) :
    ∀ (l : List (CfgParser C D)) (best : Option (CfgParser C D)),
      (∀ x, best = some x → x.constraintCheck version = true) →
      ∀ q, pbFold version l best = some q →
        q.constraintCheck version = true ∧
        (best = some q ∨ q ∈ l) ∧
        (∀ x, best = some x →
          SemVer.ltb q.latestKnownVersion x.latestKnownVersion = false) ∧
        (∀ p ∈ l, p.constraintCheck version = true →
          SemVer.ltb q.latestKnownVersion p.latestKnownVersion = false) := by
  intro l
  induction l with
  | nil =>
    intro best hbest q hfold
    rw [pbFold] at hfold
    subst hfold
    exact ⟨hbest q rfl, Or.inl rfl,
      fun x hx => by cases hx; exact SemVer.ltb_irrefl _, by simp⟩
  | cons p rest ih =>
    intro best hbest q hfold
    rw [pbFold] at hfold
    split at hfold
    · rename_i hcond
      simp only [Bool.and_eq_true] at hcond
      have hres := ih (some p) (by rintro x hx; cases hx; exact hcond.1) q hfold
      refine ⟨hres.1, ?_, ?_, ?_⟩
      · rcases hres.2.1 with h | h
        · cases h; exact Or.inr (by simp)
        · exact Or.inr (by simp [h])
      · intro x hx
        have hqp : SemVer.ltb q.latestKnownVersion p.latestKnownVersion = false :=
          hres.2.2.1 p rfl
        have hxp : SemVer.ltb x.latestKnownVersion p.latestKnownVersion = true := by
          have := hcond.2
          rw [hx, betterParser] at this
          exact this
        cases hqx : SemVer.ltb q.latestKnownVersion x.latestKnownVersion
        · rfl
        · rw [SemVer.ltb_trans hqx hxp] at hqp
          cases hqp
      · intro p' hp' hcp'
        rcases List.mem_cons.mp hp' with h | h
        · subst h
          exact hres.2.2.1 p' rfl
        · exact hres.2.2.2 p' h hcp'
    · rename_i hcond
      have hres := ih best hbest q hfold
      refine ⟨hres.1, ?_, hres.2.2.1, ?_⟩
      · rcases hres.2.1 with h | h
        · exact Or.inl h
        · exact Or.inr (by simp [h])
      · intro p' hp' hcp'
        rcases List.mem_cons.mp hp' with h | h
        · subst h
          have hnb : betterParser p' best = false := by
            cases hb : betterParser p' best
            · rfl
            · exfalso
              apply hcond
              rw [Bool.and_eq_true]
              exact ⟨hcp', hb⟩
          cases hb' : best with
          | none => rw [hb', betterParser] at hnb; cases hnb
          | some y =>
            rw [hb', betterParser] at hnb
            exact SemVer.ltb_false_trans (hres.2.2.1 y hb') hnb
        · exact hres.2.2.2 p' h hcp'

theorem maxFold_ge {C D : Type} :
    ∀ (l : List (CfgParser C D)) (acc : SemVer),
      SemVer.ltb
        (l.foldl (fun acc p => if SemVer.gtb p.latestKnownVersion acc then
          p.latestKnownVersion else acc) acc) acc = false ∧
      ∀ p ∈ l, SemVer.ltb
        (l.foldl (fun acc p => if SemVer.gtb p.latestKnownVersion acc then
          p.latestKnownVersion else acc) acc) p.latestKnownVersion = false := by
  intro l
  induction l with
  | nil => intro acc; exact ⟨SemVer.ltb_irrefl acc, by simp⟩
  | cons p rest ih =>
    intro acc
    rw [List.foldl_cons]
    by_cases hg : SemVer.gtb p.latestKnownVersion acc = true
    · rw [if_pos hg]
      obtain ⟨h1, h2⟩ := ih p.latestKnownVersion
      have hacc : SemVer.ltb acc p.latestKnownVersion = true := hg
      refine ⟨?_, ?_⟩
      · cases hr : SemVer.ltb (rest.foldl _ p.latestKnownVersion) acc
        · rfl
        · rw [SemVer.ltb_trans hr hacc] at h1
          cases h1
      · intro p' hp'
        rcases List.mem_cons.mp hp' with h | h
        · subst h; exact h1
        · exact h2 p' h
    · rw [if_neg hg]
      obtain ⟨h1, h2⟩ := ih acc
      refine ⟨h1, ?_⟩
      intro p' hp'
      rcases List.mem_cons.mp hp' with h | h
      · subst h
        have hacc : SemVer.ltb acc p'.latestKnownVersion = false := by
          cases hx : SemVer.ltb acc p'.latestKnownVersion
          · rfl
          · exact absurd hx hg
        exact SemVer.ltb_false_trans h1 hacc
      · exact h2 p' h

theorem maxFold_mem {C D : Type} :
    ∀ (l : List (CfgParser C D)) (acc : SemVer),
      (l.foldl (fun acc p => if SemVer.gtb p.latestKnownVersion acc then
        p.latestKnownVersion else acc) acc) = acc ∨
      (l.foldl (fun acc p => if SemVer.gtb p.latestKnownVersion acc then
        p.latestKnownVersion else acc) acc) ∈
        l.map (fun p => p.latestKnownVersion) := by
  intro l
  induction l with
  | nil => intro acc; exact Or.inl rfl
  | cons p rest ih =>
    intro acc
    rw [List.foldl_cons]
    by_cases hg : SemVer.gtb p.latestKnownVersion acc = true
    · rw [if_pos hg]
      rcases ih p.latestKnownVersion with h | h
      · exact Or.inr (by simp [h])
      · exact Or.inr (by simp [h])
    · rw [if_neg hg]
      rcases ih acc with h | h
      · exact Or.inl h
      · exact Or.inr (by simp [h])

theorem latestVersion_ge {C D : Type} (vp : D → Except VersionReadErr SemVer)
    (ps : List (CfgParser C D)) :
    ∀ p ∈ ps, SemVer.ltb (NewParserExtended vp ps).latestVersion
      p.latestKnownVersion = false := by
  intro p hp
  exact (maxFold_ge ps ⟨0, 0, 0⟩).2 p hp

theorem latestVersion_mem {C D : Type} (vp : D → Except VersionReadErr SemVer)
    {ps : List (CfgParser C D)} (h : ps ≠ []) :
    (NewParserExtended vp ps).latestVersion ∈
      ps.map (fun p => p.latestKnownVersion) := by
  rcases maxFold_mem ps ⟨0, 0, 0⟩ with hz | hm
  · cases ps with
    | nil => exact absurd rfl h
    | cons p rest =>
      have hge := (maxFold_ge (p :: rest) ⟨0, 0, 0⟩).2 p (by simp)
      rw [NewParserExtended]
      simp only
      rw [hz] at hge ⊢
      have : p.latestKnownVersion = (⟨0, 0, 0⟩ : SemVer) :=
        SemVer.ltb_total (SemVer.ltb_zero _) hge
      simp [← this]
  · exact hm

theorem findLoop_empty (p : List String) : findLoop p [] = none := by
  cases p with
  | nil => rfl
  | cons t ts =>
    cases ts with
    | nil => simp [findLoop, lookupEW, tlookup]
    | cons t' ts' => simp [findLoop, lookupEW, tlookup]

theorem ytew_all_unknown :
    ∀ (errs : List YamlErr), (∀ e ∈ errs, e.isUnknownField = true) →
      yamlTypeErrorToWarnings errs = some (errs.map uerrWarning) := by
  intro errs
  induction errs with
  | nil => intro _; rfl
  | cons e rest ih =>
    intro h
    cases e with
    | unknownField f l c m =>
      rw [yamlTypeErrorToWarnings, ih (fun e' he' => h e' (by simp [he']))]
      rfl
    | other m =>
      have := h (.other m) (by simp)
      simp [YamlErr.isUnknownField] at this

theorem ytew_not_all :
    ∀ (errs : List YamlErr), (∃ e ∈ errs, e.isUnknownField = false) →
      yamlTypeErrorToWarnings errs = none := by
  intro errs
  induction errs with
  | nil => rintro ⟨e, he, _⟩; simp at he
  | cons e rest ih =>
    rintro ⟨e', he', hu⟩
    cases e with
    | unknownField f l c m =>
      rw [yamlTypeErrorToWarnings]
      have hrest : e' ∈ rest := by
        rcases List.mem_cons.mp he' with h | h
        · subst h; simp [YamlErr.isUnknownField] at hu
        · exact h
      rw [ih ⟨e', hrest, hu⟩]
    | other m => rw [yamlTypeErrorToWarnings]

/-- The executable refinement meets the `sort.Slice` contract: a
line-ordered permutation of the input. -/
theorem sortByLine_spec (w : Warnings) : WarningsSortSpec w (sortByLine w) :=
  ⟨List.perm_insertionSort _ w, List.sorted_insertionSort _ w⟩

theorem mem_allChanges {cl : Changelog} {v : SemVer} {cs : List Change}
    {c : Change} (h1 : (v, cs) ∈ cl) (h2 : c ∈ cs) : c ∈ allChanges cl := by
  simp only [allChanges, List.mem_flatten]
  exact ⟨cs, List.mem_map_of_mem Prod.snd h1, h2⟩

/-- Pairwise independence of all change paths forbids the same change
value from being declared under two different versions. -/
theorem allChanges_cross {cl : Changelog}
    (hind : (allChanges cl).Pairwise tokensIndep) {c : Change}
    {v : SemVer} {cs : List Change} {v' : SemVer} {cs' : List Change}
    (h1 : (v, cs) ∈ cl) (h2 : (v', cs') ∈ cl) (hc1 : c ∈ cs) (hc2 : c ∈ cs')
    (hvv : v ≠ v') : False := by
  obtain ⟨s, t, hst⟩ := List.append_of_mem h1
  subst hst
  have hall : allChanges (s ++ (v, cs) :: t) =
      allChanges s ++ (cs ++ allChanges t) := by
    simp [allChanges]
  rw [hall] at hind
  have hsplit1 := List.pairwise_append.mp hind
  have hsplit2 := List.pairwise_append.mp hsplit1.2.1
  have hmem2 : (v', cs') ∈ s ∨ (v', cs') ∈ t := by
    rcases List.mem_append.mp h2 with h | h
    · exact Or.inl h
    · rcases List.mem_cons.mp h with h | h
      · cases h; exact absurd rfl hvv
      · exact Or.inr h
  rcases hmem2 with h | h
  · have hcs : c ∈ allChanges s := mem_allChanges h hc2
    have := hsplit1.2.2 c hcs c (by simp [hc1])
    exact this.1 (List.prefix_refl _)
  · have hct : c ∈ allChanges t := mem_allChanges h hc2
    have := hsplit2.2.2 c hc1 c hct
    exact this.1 (List.prefix_refl _)

/-- Claim C1 (amended): a terminal `Change` reached strictly before the
end of the lookup path does NOT apply to the subtree: `findChange`
returns a change exactly when the exact-name-then-wildcard walk reaches
a terminal `Change` at path exhaustion, and returns nothing when the
walk meets a terminal `Change` strictly earlier; in particular, with
changes registered on both `a` and `a.b` applicable to the same version,
linting path `a.b.c` returns no change at all (not the change on `a`). -/
theorem C1_findChange_only_at_exhaustion :
    (∀ (m : TreeMap) (p1 p2 : List String) (c : Change),
      walkEW p1 m = some (.change c) → p2 ≠ [] → findLoop (p1 ++ p2) m = none) ∧
    (∀ (m : TreeMap) (path : List String) (c : Change),
      findLoop path m = some c ↔ walkEW path m = some (.change c)) ∧
    (∀ (ecl : List (SemVer × TreeMap)) (version : SemVer) (path : List String),
      findChange ecl version path = findLoop path (changelogForVersion ecl version)) ∧
    findChange (Expand clEx) v100 ["a", "b", "c"] = none := by
  refine ⟨?_, ?_, ?_, ?_⟩
  · intro m p1 p2 c h hp2
    exact findLoop_cut h hp2
  · intro m path c
    exact findLoop_eq_walkEW path m c
  · intro ecl version path
    rfl
  · rfl

/-- Claim C1 counterexample: with changes registered on both `a` and
`a.b` at version `1.0.0`, the expanded tree binds `a` to a terminal
`Change`, yet linting path `a.b.c` at `1.0.0` returns no change — not
the change registered on `a` as the claim asserts. -/
theorem C1_counterexample :
    changelogForVersion (Expand clEx) v100 = [("a", Node.change chA)] ∧
    findChange (Expand clEx) v100 ["a", "b", "c"] = none ∧
    findChange (Expand clEx) v100 ["a", "b", "c"] ≠ some chA := by
  refine ⟨rfl, rfl, ?_⟩
  decide

/-- Claim C1 witness: the walk reaches the change on `a` after one
segment, and the full three-segment lookup returns nothing; the change
on `a` is returned when the path stops exactly at `a`. -/
theorem C1_witness :
    findLoop (["a"] ++ ["b", "c"]) (changelogForVersion (Expand clEx) v100) = none ∧
    findLoop ["a"] (changelogForVersion (Expand clEx) v100) = some chA := by
  constructor
  · exact C1_findChange_only_at_exhaustion.1
      (changelogForVersion (Expand clEx) v100) ["a"] ["b", "c"] chA rfl (by simp)
  · exact (C1_findChange_only_at_exhaustion.2.1
      (changelogForVersion (Expand clEx) v100) ["a"] chA).mpr rfl

/-- Claim C2 (amended): for a changelog with pairwise distinct version
keys whose changes have pairwise independent field paths (no change's
dotted path is a prefix of another's — the situation parent-precedence
insertion would otherwise discard), `Expand` produces exactly one field
tree per version key, and the tree for version `v2` binds precisely the
`FieldDeprecated` changes declared at versions `≤ v2` and the
`FieldIntroduced` changes declared at versions `> v2`, each under its own
field path; changes `FieldIntroduced` at or before `v2` are absent from
`v2`'s tree. -/
theorem C2_expand_membership : ∀ (cl : Changelog),
    (cl.map Prod.fst).Pairwise (· ≠ ·) →
    (allChanges cl).Pairwise tokensIndep →
    ((Expand cl).map Prod.fst).Perm (cl.map Prod.fst) ∧
    (∀ v2 m, (v2, m) ∈ Expand cl → ∀ p c,
      lookupTokens p m = some c ↔
        (changeTokens c = p ∧ ∃ v cs, (v, cs) ∈ cl ∧ c ∈ cs ∧
          ((c.ChangeType = ChangeType.FieldDeprecated ∧ SemVer.gtb v v2 = false) ∨
           (c.ChangeType = ChangeType.FieldIntroduced ∧ SemVer.gtb v v2 = true)))) ∧
    (∀ v2 m, (v2, m) ∈ Expand cl → ∀ v cs c, (v, cs) ∈ cl → c ∈ cs →
      c.ChangeType = ChangeType.FieldIntroduced → SemVer.gtb v v2 = false →
      lookupTokens (changeTokens c) m = none) := by
  intro cl hkeys hind
  refine ⟨?_, ?_, ?_⟩
  · rw [Expand_keys]
    exact sortVersions_perm _
  · intro v2 m hm p c
    rw [Expand_lookup_char hkeys hind hm p c, insertSeq_mem hkeys v2 c]
    exact and_comm
  · intro v2 m hm v cs c hvin hcin hty hgt
    cases hl : lookupTokens (changeTokens c) m with
    | none => rfl
    | some c' =>
      exfalso
      obtain ⟨hmem', htok⟩ := (Expand_lookup_char hkeys hind hm _ c').mp hl
      obtain ⟨v', cs', hv', hc', hq⟩ := (insertSeq_mem hkeys v2 c').mp hmem'
      by_cases hcc : c' = c
      · subst hcc
        by_cases hvv : v' = v
        · subst hvv
          rcases hq with ⟨hd, _⟩ | ⟨_, hg⟩
          · rw [hty] at hd
            cases hd
          · rw [hgt] at hg
            cases hg
        · exact allChanges_cross hind hv' hvin hc' hcin hvv
      · have hi := List.Pairwise.forall tokensIndep_symm hind
          (mem_allChanges hv' hc') (mem_allChanges hvin hcin) hcc
        exact hi.1 (htok ▸ List.prefix_refl _)

/-- Claim C2 counterexample: in the changelog registering `FieldDeprecated`
changes on both `a` and `a.b` at version `1.0.0`, the expanded tree for
`1.0.0` does NOT contain the change on `a.b` (its insertion is discarded
by parent-precedence), although the claim demands that it contain
precisely all deprecated changes of versions `≤ 1.0.0`. -/
theorem C2_counterexample :
    Expand clEx = [(v100, [("a", Node.change chA)])] ∧
    (v100, [chA, chAB]) ∈ clEx ∧
    chAB ∈ [chA, chAB] ∧
    chAB.ChangeType = ChangeType.FieldDeprecated ∧
    SemVer.gtb v100 v100 = false ∧
    lookupTokens (changeTokens chAB) [("a", Node.change chA)] = none ∧
    lookupTokens (changeTokens chAB) [("a", Node.change chA)] ≠ some chAB := by
  refine ⟨rfl, by decide, by decide, rfl, rfl, rfl, by decide⟩

/-- Claim C2 witness: the two-version changelog with independent paths
`a` (deprecated at 1.0.0) and `x.y` (introduced at 2.0.0) satisfies the
hypotheses; in the expanded tree for `1.0.0`, the introduced-later change
`x.y` is present, and in the tree for `2.0.0` it is absent. -/
theorem C2_witness :
    ((Expand clTwo).map Prod.fst).Perm (clTwo.map Prod.fst) ∧
    lookupTokens ["x", "y"] [("a", Node.change chA),
      ("x", Node.tmap [("y", Node.change chXY)])] = some chXY ∧
    lookupTokens (changeTokens chXY) [("a", Node.change chA)] = none := by
  have h := C2_expand_membership clTwo (by decide) (by decide)
  refine ⟨h.1, ?_, ?_⟩
  · have hm : (v100, [("a", Node.change chA),
        ("x", Node.tmap [("y", Node.change chXY)])]) ∈ Expand clTwo := by
      rw [show Expand clTwo = [(v100, [("a", Node.change chA),
        ("x", Node.tmap [("y", Node.change chXY)])]),
        (v200, [("a", Node.change chA)])] from rfl]
      exact List.mem_cons_self _ _
    exact (h.2.1 v100 _ hm ["x", "y"] chXY).mpr
      ⟨by decide, v200, [chXY], by decide, by decide, Or.inr ⟨rfl, by decide⟩⟩
  · have hm : (v200, [("a", Node.change chA)]) ∈ Expand clTwo := by
      rw [show Expand clTwo = [(v100, [("a", Node.change chA),
        ("x", Node.tmap [("y", Node.change chXY)])]),
        (v200, [("a", Node.change chA)])] from rfl]
      exact List.mem_cons_of_mem _ (List.mem_cons_self _ _)
    exact h.2.2 v200 _ hm v200 [chXY] chXY (by decide) (by decide) rfl (by decide)

/-- Claim C7: inserting a `Change` whose dotted field path has a strict
ancestor segment already bound to a terminal `Change` leaves the tree
unchanged (the more specific change is discarded); inserting a `Change`
all of whose strict ancestors are sub-trees or absent binds the final
segment to that change (creating intermediate sub-trees as needed), so
that the full path reads back exactly that change. -/
theorem C7_addChange_parent_precedence :
    (∀ (m : TreeMap) (c : Change),
      (∃ r u, r ≠ [] ∧ u ≠ [] ∧ changeTokens c = r ++ u ∧
        (lookupTokens r m).isSome = true) →
      addChange c m = m) ∧
    (∀ (m : TreeMap) (c : Change),
      (∀ r u, changeTokens c = r ++ u → r ≠ [] → u ≠ [] → lookupTokens r m = none) →
      lookupTokens (changeTokens c) (addChange c m) = some c) := by
  constructor
  · rintro m c ⟨r, u, hr, hu, htok, hsome⟩
    have hblocked : ancestorsOpen (changeTokens c) m = false := by
      cases h : ancestorsOpen (changeTokens c) m
      · rfl
      · rw [htok] at h
        rw [ancestorsOpen_true_elim hr hu h] at hsome
        cases hsome
    exact addTokens_blocked hblocked c
  · intro m c h
    have hopen : ancestorsOpen (changeTokens c) m = true := by
      cases ho : ancestorsOpen (changeTokens c) m
      · exfalso
        obtain ⟨r, u, hr, hu, htok, hsome⟩ := ancestorsOpen_false_elim ho
        rw [h r u htok hr hu] at hsome
        cases hsome
      · rfl
    exact addTokens_lookup_self (changeTokens_ne_nil c) hopen c

/-- Claim C7 witness: inserting `a.b` into a tree where `a` is a terminal
change leaves the tree unchanged, and inserting `a` into the empty tree
binds it. -/
theorem C7_witness :
    addChange chAB [("a", Node.change chA)] = [("a", Node.change chA)] ∧
    lookupTokens (changeTokens chA) (addChange chA []) = some chA := by
  constructor
  · exact C7_addChange_parent_precedence.1 [("a", Node.change chA)] chAB
      ⟨["a"], ["b"], by simp, by simp, by decide, rfl⟩
  · exact C7_addChange_parent_precedence.2 [] chA
      (fun r u _ _ _ => lookupTokens_nil r)

/-- Claim C10: `findChange` returns no change for the empty path (for
every expanded changelog and version, including when
`changelogForVersion` yields no tree), so `InspectNode`, which reads the
last path segment only on a hit, never goes out of bounds: on every hit
the path is non-empty, the last segment exists, and `InspectNode`
produces the corresponding warning. -/
theorem C10_inspectNode_empty_path_safe :
    (∀ (ecl : List (SemVer × TreeMap)) (version : SemVer),
      findChange ecl version [] = none) ∧
    (∀ (ecl : List (SemVer × TreeMap)) (version : SemVer) (path : List String),
      (findChange ecl version path).isSome = true → path ≠ []) ∧
    (∀ (ecl : List (SemVer × TreeMap)) (version : SemVer) (path : List String)
      (node : YamlNode) (c : Change),
      findChange ecl version path = some c →
      ∃ f, path.getLast? = some f ∧
        InspectNode ecl version path node = some (newWarning f node c.Message)) := by
  have h1 : ∀ (ecl : List (SemVer × TreeMap)) (version : SemVer),
      findChange ecl version [] = none := by
    intro ecl version
    rfl
  have h2 : ∀ (ecl : List (SemVer × TreeMap)) (version : SemVer) (path : List String),
      (findChange ecl version path).isSome = true → path ≠ [] := by
    intro ecl version path hsome hpath
    subst hpath
    rw [h1 ecl version] at hsome
    cases hsome
  refine ⟨h1, h2, ?_⟩
  intro ecl version path node c hfind
  cases hlast : path.getLast? with
  | none =>
    exfalso
    exact h2 ecl version path (by rw [hfind]; rfl) (List.getLast?_eq_none_iff.mp hlast)
  | some f =>
    exact ⟨f, rfl, by simp [InspectNode, hfind, hlast]⟩

/-- Claim C10 witness: a concrete hit on the non-empty path `a`
discharges the hypotheses: the path is non-empty, its last segment
exists, and `InspectNode` produces the warning for the change on `a`. -/
theorem C10_witness : (["a"] : List String) ≠ [] ∧
    ∃ f, (["a"] : List String).getLast? = some f ∧
      InspectNode (Expand clEx) v100 ["a"] {} = some (newWarning f {} chA.Message) := by
  constructor
  · exact C10_inspectNode_empty_path_safe.2.1 (Expand clEx) v100 ["a"] rfl
  · exact C10_inspectNode_empty_path_safe.2.2 (Expand clEx) v100 ["a"] {} chA rfl

theorem findLoop_congr_head {m : TreeMap} {x y : String}
    (h : lookupEW m x = lookupEW m y) (post : List String) :
    findLoop (x :: post) m = findLoop (y :: post) m := by
  cases post with
  | nil => rw [findLoop, findLoop, h]
  | cons p ps => rw [findLoop, findLoop, h]

/-- Concrete path segments that are absent as exact keys at the wildcard
level resolve identically through the wildcard entry. -/
theorem findLoop_wildcard_uniform :
    ∀ (pre : List String) (m m1 : TreeMap) (x y : String) (post : List String),
      walkEW pre m = some (.tmap m1) →
      tlookup m1 x = none → tlookup m1 y = none →
      findLoop (pre ++ x :: post) m = findLoop (pre ++ y :: post) m := by
  intro pre
  induction pre with
  | nil =>
    intro m m1 x y post hw hx hy
    rw [walkEW] at hw
    have hm : m = m1 := Node.tmap.inj (Option.some.inj hw)
    subst hm
    simp only [List.nil_append]
    apply findLoop_congr_head
    simp only [lookupEW, hx, hy]
  | cons t pre' ih =>
    intro m m1 x y post hw hx hy
    rw [walkEW] at hw
    cases hl : lookupEW m t with
    | none => rw [hl] at hw; cases hw
    | some n =>
      cases n with
      | change c =>
        rw [hl] at hw
        simp only at hw
        split at hw <;> simp at hw
      | tmap m2 =>
        rw [hl] at hw
        simp only at hw
        rw [List.cons_append, List.cons_append,
          findLoop_cons (by simp), findLoop_cons (by simp), hl]
        exact ih m2 m1 x y post hw hx hy

/-- Claim C8: a change registered under a wildcard segment matches every
concrete path that differs only in the wildcard position, provided the
concrete segments have no exact entry at that level; and the
exact-then-wildcard lookup takes an existing exact-name entry and
consults the wildcard key only when the exact name is absent.  The
wildcard change on `pipelines.*.processors` answers identically for
`pipelines.pipeline1.processors` and `pipelines.anything.processors`. -/
theorem C8_wildcard_matching :
    (∀ (m m1 : TreeMap) (pre : List String) (x y : String) (post : List String),
      walkEW pre m = some (.tmap m1) →
      tlookup m1 x = none → tlookup m1 y = none →
      findLoop (pre ++ x :: post) m = findLoop (pre ++ y :: post) m) ∧
    (∀ (m : TreeMap) (t : String) (n : Node),
      tlookup m t = some n → lookupEW m t = some n) ∧
    (∀ (m : TreeMap) (t : String),
      tlookup m t = none → lookupEW m t = tlookup m "*") ∧
    (findChange (Expand clW) v100 ["pipelines", "pipeline1", "processors"] = some chW ∧
     findChange (Expand clW) v100 ["pipelines", "anything", "processors"] = some chW) := by
  refine ⟨?_, ?_, ?_, rfl, rfl⟩
  · intro m m1 pre x y post hw hx hy
    exact findLoop_wildcard_uniform pre m m1 x y post hw hx hy
  · intro m t n h
    simp only [lookupEW, h]
  · intro m t h
    simp only [lookupEW, h]

/-- Claim C8 witness: in the expanded wildcard tree, the paths through
`pipeline1` and `anything` resolve identically (both segments absent at
the wildcard level), and an exact entry is taken by the
exact-then-wildcard lookup. -/
theorem C8_witness :
    findLoop (["pipelines"] ++ "pipeline1" :: ["processors"])
        (changelogForVersion (Expand clW) v100) =
      findLoop (["pipelines"] ++ "anything" :: ["processors"])
        (changelogForVersion (Expand clW) v100) ∧
    lookupEW [("a", Node.change chA)] "a" = some (Node.change chA) := by
  constructor
  · exact C8_wildcard_matching.1 (changelogForVersion (Expand clW) v100)
      [("*", Node.tmap [("processors", Node.change chW)])]
      ["pipelines"] "pipeline1" "anything" ["processors"] rfl rfl rfl
  · exact C8_wildcard_matching.2.1 [("a", Node.change chA)] "a"
      (Node.change chA) rfl

/-- Claim C5: for an expanded changelog with pairwise distinct versions,
`changelogForVersion` returns the tree registered exactly at the target
version if present; otherwise the tree of the greatest registered version
strictly less than the target; and when no registered version is less
than the target it returns the empty tree, so `findChange` finds no
change for any path at that version. -/
theorem C5_changelogForVersion_resolution :
    ∀ (ecl : List (SemVer × TreeMap)) (version : SemVer),
      (ecl.map Prod.fst).Pairwise (· ≠ ·) →
      ((∀ m, (version, m) ∈ ecl → changelogForVersion ecl version = m) ∧
       (version ∉ ecl.map Prod.fst →
         ∀ b mb, (b, mb) ∈ ecl → SemVer.ltb b version = true →
           (∀ u ∈ ecl.map Prod.fst, SemVer.ltb u version = true →
             SemVer.ltb b u = false) →
           changelogForVersion ecl version = mb) ∧
       ((version ∉ ecl.map Prod.fst ∧
         ∀ u ∈ ecl.map Prod.fst, SemVer.ltb u version = false) →
         changelogForVersion ecl version = [] ∧
         ∀ path, findChange ecl version path = none)) := by
  intro ecl version hkeys
  refine ⟨?_, ?_, ?_⟩
  · intro m hm
    exact cfvLoop_exact ecl ecl hkeys hm none
  · intro hnot b mb hbm hblt hmax
    have hne : ∀ e ∈ ecl, version ≠ e.1 := by
      intro e he hv
      exact hnot (hv ▸ List.mem_map_of_mem Prod.fst he)
    rw [changelogForVersion, cfvLoop_no_exact ecl ecl hne none]
    cases hbf : bestFold version ecl none with
    | none =>
      exfalso
      have hb := ((bestFold_none_iff ecl none).mp hbf).2 (b, mb) hbm
      rw [hblt] at hb
      cases hb
    | some b' =>
      have hspec := bestFold_some_spec ecl none (by rintro x hx; cases hx) b' hbf
      have hb'mem : b' ∈ ecl.map Prod.fst := by
        rcases hspec.2.1 with h | h
        · cases h
        · exact h
      have h1 : SemVer.ltb b b' = false := hmax b' hb'mem hspec.1
      have h2 : SemVer.ltb b' b = false := hspec.2.2.2 (b, mb) hbm hblt
      have hbb : b' = b := SemVer.ltb_total h2 h1
      subst hbb
      simp only
      rw [(eclFind_eq_some hkeys).mpr hbm]
      rfl
  · rintro ⟨hnot, hnoless⟩
    have hne : ∀ e ∈ ecl, version ≠ e.1 := by
      intro e he hv
      exact hnot (hv ▸ List.mem_map_of_mem Prod.fst he)
    have hcv : changelogForVersion ecl version = [] := by
      rw [changelogForVersion, cfvLoop_no_exact ecl ecl hne none]
      have hbf : bestFold version ecl none = none :=
        (bestFold_none_iff ecl none).mpr
          ⟨rfl, fun e he => hnoless e.1 (List.mem_map_of_mem Prod.fst he)⟩
      rw [hbf]
    refine ⟨hcv, ?_⟩
    intro path
    rw [findChange, hcv]
    exact findLoop_empty path

/-- Claim C5 witness: exact match at `1.0.0`, best-match resolution of
`1.5.0` to the `1.0.0` tree, and no data below every registered
version. -/
theorem C5_witness :
    changelogForVersion eclW5 v100 = [("a", Node.change chA)] ∧
    changelogForVersion eclW5 ⟨1, 5, 0⟩ = [("a", Node.change chA)] ∧
    changelogForVersion eclW5 ⟨0, 5, 0⟩ = [] ∧
    findChange eclW5 ⟨0, 5, 0⟩ ["a"] = none := by
  refine ⟨?_, ?_, ?_, ?_⟩
  · exact (C5_changelogForVersion_resolution eclW5 v100 (by decide)).1
      [("a", Node.change chA)] (List.mem_cons_self _ _)
  · exact (C5_changelogForVersion_resolution eclW5 ⟨1, 5, 0⟩ (by decide)).2.1
      (by decide) v100 [("a", Node.change chA)] (List.mem_cons_self _ _)
      (by decide) (by decide)
  · exact ((C5_changelogForVersion_resolution eclW5 ⟨0, 5, 0⟩ (by decide)).2.2
      ⟨by decide, by decide⟩).1
  · exact ((C5_changelogForVersion_resolution eclW5 ⟨0, 5, 0⟩ (by decide)).2.2
      ⟨by decide, by decide⟩).2 ["a"]

/-- Claim C4: for one decoded document, a batched `yaml.TypeError` is
converted into warnings — exactly one per unknown-field error, carrying
that error's field name, line and column — precisely when every error in
the batch is an unknown-field error; if any other structural error is
present, `ParseVersionedConfig` returns a decoding error and no warnings
at all for that document (the other error is never downgraded). -/
theorem C4_recoverable_vs_fatal {C : Type} :
    (∀ (lintWarn : Warnings) (cfg : C) (errs : List YamlErr),
      (∀ e ∈ errs, e.isUnknownField = true) →
      ParseVersionedConfig lintWarn (.typeErr cfg errs) =
        .ok (cfg, lintWarn ++ errs.map uerrWarning) ∧
      (errs.map uerrWarning).length = errs.length) ∧
    (∀ (f : String) (l c : Int) (m : String),
      uerrWarning (.unknownField f l c m) =
        { Position := { Field := f, Line := l, Column := c, Value := "" }
          Message := m }) ∧
    (∀ (lintWarn : Warnings) (cfg : C) (errs : List YamlErr),
      (∃ e ∈ errs, e.isUnknownField = false) →
      ParseVersionedConfig lintWarn (.typeErr cfg errs) =
        .error ("decoding error: " ++ typeErrorMessage errs)) := by
  refine ⟨?_, ?_, ?_⟩
  · intro lw cfg errs h
    constructor
    · simp only [ParseVersionedConfig]
      rw [ytew_all_unknown errs h]
    · exact List.length_map _ _
  · intro f l c m
    rfl
  · intro lw cfg errs h
    simp only [ParseVersionedConfig]
    rw [ytew_not_all errs h]

/-- Claim C4 witness: two unknown fields convert to exactly two warnings;
an unknown field next to another structural error fails with a decoding
error and no warnings. -/
theorem C4_witness :
    ParseVersionedConfig [] (DecodeOutcome.typeErr (0 : Nat)
      [.unknownField "foo" 3 1 "unknown field foo",
       .unknownField "bar" 5 2 "unknown field bar"]) =
      .ok (0, [uerrWarning (.unknownField "foo" 3 1 "unknown field foo"),
               uerrWarning (.unknownField "bar" 5 2 "unknown field bar")]) ∧
    ParseVersionedConfig [] (DecodeOutcome.typeErr (0 : Nat)
      [.unknownField "foo" 3 1 "unknown field foo", .other "cannot unmarshal"]) =
      .error ("decoding error: " ++ typeErrorMessage
        [.unknownField "foo" 3 1 "unknown field foo", .other "cannot unmarshal"]) := by
  constructor
  · have h := (C4_recoverable_vs_fatal.1 [] (0 : Nat)
      [.unknownField "foo" 3 1 "unknown field foo",
       .unknownField "bar" 5 2 "unknown field bar"] (by decide)).1
    simpa using h
  · exact C4_recoverable_vs_fatal.2.2 [] (0 : Nat)
      [.unknownField "foo" 3 1 "unknown field foo", .other "cannot unmarshal"]
      ⟨.other "cannot unmarshal", by decide, rfl⟩

/-- Claim C9 counterexample: `Warnings.Sort` delegates to Go
`sort.Slice`, whose contract (`WarningsSortSpec`) admits, for the input
`[A@1, B@1]`, the output `[B@1, A@1]`: a line-ordered permutation in
which the two equal-line warnings have swapped their original relative
order.  A stable sort would have to return the input itself, so the
claim's stability guarantee does not hold of the code's contract. -/
theorem C9_counterexample :
    WarningsSortSpec [wL1A, wL1B] [wL1B, wL1A] ∧
    [wL1B, wL1A] ≠ [wL1A, wL1B] := by
  refine ⟨⟨by decide, ?_⟩, by decide⟩
  unfold sortedByLine
  decide

/-- Claim C9 (amended): `Warnings.Sort` returns a permutation of the
warnings ordered by ascending line number (the `sort.Slice` contract);
warnings with equal line numbers may appear in any relative order, since
Go documents `sort.Slice` as not guaranteed to be stable.  The
executable insertion-sort refinement witnesses that such an output
exists for every input. -/
theorem C9_sort_by_line (w : Warnings) : WarningsSortSpec w (sortByLine w) :=
  sortByLine_spec w

/-- Claim C3: for every registered parser list and requested version,
`findVersionedConfigParser` returns as a perfect match the first parser
in list order whose constraint accepts the version and whose
`LatestKnownVersion` is at least the version; if none exists, it returns
a constraint-satisfying parser with the greatest `LatestKnownVersion` as
a non-perfect best match, and `Parse` then appends exactly one warning
naming the requested version, the chosen parser's `LatestKnownVersion`
and its constraint; if no parser's constraint accepts the version,
`Parse` fails with an unsupported-version error. -/
theorem C3_parser_selection {C D : Type} :
    (∀ (version : SemVer) (pre : List (CfgParser C D)) (p : CfgParser C D)
      (post : List (CfgParser C D)),
      (∀ q ∈ pre, ¬(q.constraintCheck version = true ∧
        SemVer.gteb q.latestKnownVersion version = true)) →
      p.constraintCheck version = true →
      SemVer.gteb p.latestKnownVersion version = true →
      findVersionedConfigParser (pre ++ p :: post) version = some (p, true)) ∧
    (∀ (version : SemVer) (ps : List (CfgParser C D)),
      (∀ p ∈ ps, p.constraintCheck version = true →
        SemVer.gteb p.latestKnownVersion version = false) →
      (∃ p ∈ ps, p.constraintCheck version = true) →
      ∃ q, findVersionedConfigParser ps version = some (q, false) ∧
        q.constraintCheck version = true ∧ q ∈ ps ∧
        (∀ p ∈ ps, p.constraintCheck version = true →
          SemVer.ltb q.latestKnownVersion p.latestKnownVersion = false)) ∧
    (∀ (P : DispatchParser C D) (doc : D) (version : SemVer)
      (q : CfgParser C D) (vc : VersionedCfg C) (w2 : Warnings) (cfg : C),
      P.versionParser doc = .ok version →
      findVersionedConfigParser P.configParsers version = some (q, false) →
      q.parseVersionedConfig doc version = .ok (vc, w2) →
      vc.toConfig = .ok cfg →
      Parse P [doc] = .ok ([cfg], [fallbackParserWarning version q] ++ sortByLine w2)) ∧
    (∀ (version : SemVer) (q : CfgParser C D), ∃ s1 s2 s3,
      (fallbackParserWarning version q).Message =
        s1 ++ version.str ++ s2 ++ q.latestKnownVersion.str ++ s3 ++ q.constraintStr) ∧
    (∀ (P : DispatchParser C D) (doc : D) (version : SemVer) (rest : List D),
      P.versionParser doc = .ok version →
      (∀ p ∈ P.configParsers, p.constraintCheck version = false) →
      Parse P (doc :: rest) = .error ("unsupported version " ++ version.str)) := by
  refine ⟨?_, ?_, ?_, ?_, ?_⟩
  · intro version pre p post hpre hc hv
    rw [findVersionedConfigParser]
    exact fvcpLoop_first_perfect version pre p post none hpre hc hv
  · intro version ps hnp hex
    rw [findVersionedConfigParser, fvcpLoop_no_perfect version ps hnp none]
    cases hpb : pbFold version ps none with
    | none =>
      exfalso
      obtain ⟨p0, hp0, hc0⟩ := hex
      have hall := ((pbFold_none_iff version ps none).mp hpb).2 p0 hp0
      rw [hall] at hc0
      cases hc0
    | some q =>
      have hspec := pbFold_some_spec version ps none (by rintro x hx; cases hx) q hpb
      refine ⟨q, rfl, hspec.1, ?_, hspec.2.2.2⟩
      rcases hspec.2.1 with h | h
      · cases h
      · exact h
  · intro P doc version q vc w2 cfg hvp hfind hpvc htc
    rw [Parse, ParseLoop.eq_def]
    simp only [parseVersion, hvp, hfind, hpvc, htc]
    rw [ParseLoop.eq_def]
    simp
  · intro version q
    exact ⟨"no parser found for version ", ", using parser for version ",
      " with costraints ", rfl⟩
  · intro P doc version rest hvp hall
    have hfind : findVersionedConfigParser P.configParsers version = none := by
      rw [findVersionedConfigParser,
        fvcpLoop_no_perfect version P.configParsers
          (fun p hp hc => by rw [hall p hp] at hc; cases hc) none,
        (pbFold_none_iff version P.configParsers none).mpr ⟨rfl, hall⟩]
    rw [Parse, ParseLoop.eq_def]
    simp only [parseVersion, hvp, hfind]

/-- Claim C3 witness: the `1.12.0` request against `^1`@`1.1.0` and `^2`
selects the first parser as a non-perfect best match with exactly one
fallback warning; a `1.0.5` request finds the `^1` parser as a perfect
match behind the non-eligible `^2` parser; the `3.0.0` request fails with
an unsupported-version error. -/
theorem C3_witness :
    findVersionedConfigParser [parser2, parser1] ⟨1, 0, 5⟩ = some (parser1, true) ∧
    Parse PC3 [()] = .ok ([7],
      [fallbackParserWarning ⟨1, 12, 0⟩ parser1] ++ sortByLine []) ∧
    Parse PU [()] = .error ("unsupported version " ++ SemVer.str ⟨3, 0, 0⟩) := by
  refine ⟨?_, ?_, ?_⟩
  · exact C3_parser_selection.1 ⟨1, 0, 5⟩ [parser2] parser1 []
      (by
        intro q hq
        rw [List.mem_singleton] at hq
        subst hq
        decide)
      (by decide) (by decide)
  · exact C3_parser_selection.2.2.1 PC3 () ⟨1, 12, 0⟩ parser1 ⟨.ok 7⟩ [] 7
      rfl rfl rfl rfl
  · exact C3_parser_selection.2.2.2.2 PU () ⟨3, 0, 0⟩ [] rfl
      (by
        intro p hp
        rcases List.mem_cons.mp hp with h | h
        · subst h; decide
        · rw [List.mem_singleton] at h
          subst h
          decide)

/-- Claim C6: when the version reader fails with `VersionNotSpecified`,
`Parse` proceeds with the greatest `LatestKnownVersion` over all
registered parsers and adds exactly one warning describing the fallback,
whose position is entirely zero; any other version-reading failure
aborts the parse with an error and no results. -/
theorem C6_no_version_fallback {C D : Type} :
    (∀ (vp : D → Except VersionReadErr SemVer) (ps : List (CfgParser C D))
      (doc : D) (q : CfgParser C D) (vc : VersionedCfg C) (w2 : Warnings) (cfg : C),
      vp doc = .error .versionNotSpecified →
      findVersionedConfigParser ps (NewParserExtended vp ps).latestVersion =
        some (q, true) →
      q.parseVersionedConfig doc (NewParserExtended vp ps).latestVersion =
        .ok (vc, w2) →
      vc.toConfig = .ok cfg →
      Parse (NewParserExtended vp ps) [doc] = .ok ([cfg],
        [fallbackVersionWarning (NewParserExtended vp ps).latestVersion] ++
          sortByLine w2)) ∧
    (∀ v : SemVer, (fallbackVersionWarning v).Position =
      { Field := "", Line := 0, Column := 0, Value := "" }) ∧
    (∀ (vp : D → Except VersionReadErr SemVer) (ps : List (CfgParser C D)),
      (∀ p ∈ ps, SemVer.ltb (NewParserExtended vp ps).latestVersion
        p.latestKnownVersion = false) ∧
      (ps ≠ [] → (NewParserExtended vp ps).latestVersion ∈
        ps.map (fun p => p.latestKnownVersion))) ∧
    (∀ (vp : D → Except VersionReadErr SemVer) (ps : List (CfgParser C D))
      (doc : D) (rest : List D) (msg : String),
      vp doc = .error (.other msg) →
      Parse (NewParserExtended vp ps) (doc :: rest) =
        .error ("failed to parse version: " ++ msg)) := by
  refine ⟨?_, ?_, ?_, ?_⟩
  · intro vp ps doc q vc w2 cfg hvp hfind hpvc htc
    have hvp' : (NewParserExtended vp ps).versionParser doc =
        .error .versionNotSpecified := hvp
    have hfind' : findVersionedConfigParser
        (NewParserExtended vp ps).configParsers
        (NewParserExtended vp ps).latestVersion = some (q, true) := hfind
    rw [Parse, ParseLoop.eq_def]
    simp only [parseVersion, hvp', hfind', hpvc, htc]
    rw [ParseLoop.eq_def]
    simp
  · intro v
    rfl
  · intro vp ps
    exact ⟨latestVersion_ge vp ps, fun h => latestVersion_mem vp h⟩
  · intro vp ps doc rest msg hvp
    have hvp' : (NewParserExtended vp ps).versionParser doc =
        .error (.other msg) := hvp
    rw [Parse, ParseLoop.eq_def]
    simp only [parseVersion, hvp']

/-- Claim C6 witness: the document without a version parses at the
global latest known version `2.0.0` with exactly one zero-position
fallback warning; a hard version-reading failure aborts the parse. -/
theorem C6_witness :
    Parse PNoV [()] = .ok ([8], [fallbackVersionWarning ⟨2, 0, 0⟩] ++ sortByLine []) ∧
    Parse PBoom [(), ()] = .error ("failed to parse version: " ++ "boom") := by
  constructor
  · exact C6_no_version_fallback.1 vpNone [parser1, parser2] () parser2
      ⟨.ok 8⟩ [] 8 rfl rfl rfl rfl
  · exact C6_no_version_fallback.2.2.2 vpBoom [parser1, parser2] () [()] "boom" rfl

end EvolviConf
